import Mathlib

/-!
Verification development for the `acsync` file synchronizer.

The program has two cores, modelled here by a shallow embedding:

* `src/fs.rs` — a lazy, filterable, prunable filesystem traversal engine
  (`FileSearcher`, `IntoIter`, `FilterPath`).  Paths are modelled as lists of
  segments (`FPath`); the filesystem is an abstract read interface `Fs` whose
  directory listings can contain per-entry errors, matching `std::fs::ReadDir`.
  Loops of the source become fuel-indexed recursive functions; running out of
  fuel behaves as "iterator exhausted", which is sound for the safety
  properties proved below and irrelevant for concrete runs with enough fuel.

* `src/main.rs` — the `replicate` executor.  The mutable filesystem is a
  `World` (an association list of paths to nodes plus a current clock used as
  the modification time of newly written entries).  OS errors are modelled as
  numeric codes (`2` for not-found style failures, `17` for already-exists,
  `20` for not-a-directory, `1` for a prefix-stripping failure).  Interactive
  confirmation input is a list of pending answer lines; reading at end of
  input yields an empty line, matching `read_line` at EOF.  The `debug`
  printing of the source is pure logging and is not modelled.
-/

/-- A filesystem path, as its list of segments (the `components()` of the
Rust `PathBuf`, left abstract of the platform root).  The Rust
`PathBuf::default()` (the empty path) is the empty list. -/
abbrev FPath := List String

/-- `Path::parent`: `none` for the empty path, otherwise drop the last
segment. -/
def parentOf : FPath → Option FPath
  | [] => none
  | p => some p.dropLast

/-- `Path::strip_prefix`: if `pre` is a prefix of `p`, the remainder,
otherwise `none` (the Rust call returns `Err`). -/
def relOf (pre p : FPath) : Option FPath :=
  if pre.isPrefixOf p then some (p.drop pre.length) else none

/-- The character form of a path: segments joined by `/`, as produced by
`to_string_lossy` on the paths this program builds. -/
def pathChars : FPath → List Char
  | [] => []
  | [s] => s.data
  | s :: rest => s.data ++ '/' :: pathChars rest

/-- Substring containment on character lists: Rust `str::contains` — the
needle occurs as a prefix of some suffix of the haystack. -/
def strHas : List Char → List Char → Bool
  | [], needle => needle.isPrefixOf []
  | c :: t, needle => needle.isPrefixOf (c :: t) || strHas t needle

/-- Split a character list at its last `'.'`: `some (before, after)` when a
dot exists, `none` otherwise. -/
def lastDotSplit : List Char → Option (List Char × List Char)
  | [] => none
  | c :: rest =>
    match lastDotSplit rest with
    | some (pre, post) => some (c :: pre, post)
    | none => if c = '.' then some ([], rest) else none

/-- Rust `Path::extension` on a file name: the part after the last dot,
unless there is no dot or the part before the last dot is empty (a hidden
file like `.gitignore` has no extension). -/
def extensionOf (name : List Char) : Option (List Char) :=
  match lastDotSplit name with
  | some (pre, post) => if pre = [] then none else some post
  | none => none

/-- `Path::extension` on a path: the extension of its last segment. -/
def extOf (p : FPath) : Option (List Char) :=
  match p.getLast? with
  | none => none
  | some s => extensionOf s.data

/-- The read-only filesystem interface the traversal engine consumes.
`readDir` mirrors `std::fs::read_dir`: opening can fail, and each yielded
entry of an open listing can individually fail. -/
structure Fs where
  isFile : FPath → Bool
  isDir : FPath → Bool
  readDir : FPath → Except Nat (List (Except Nat FPath))

/-- `usize::MAX`, the default (unbounded) `max_depth`. -/
def usizeMax : Nat := 2 ^ 64 - 1

/-- `FileSearcherOptions` of `src/fs.rs` (the `Default` derive gives
`overall = false`, `max_depth = 0`, empty lists). -/
structure FileSearcherOptions where
  overall : Bool
  max_depth : Nat
  includes : List String
  excludes : List String
  extensions : List String
deriving Repr, DecidableEq

def FileSearcherOptions.default : FileSearcherOptions :=
  { overall := false, max_depth := 0, includes := [], excludes := [], extensions := [] }

/-- `FileSearcher` of `src/fs.rs`. -/
structure FileSearcher where
  start_path : FPath
  options : FileSearcherOptions
deriving Repr, DecidableEq

/-- `FileSearcher::new`: an existing file or directory root is kept; any
other root falls back to `FileSearcher::default()`, whose start path is the
empty path.  Both constructors set `max_depth` to `usize::MAX`. -/
def FileSearcher.new (fs : Fs) (start_path : FPath) : FileSearcher :=
  if fs.isFile start_path || fs.isDir start_path then
    { start_path := start_path,
      options := { FileSearcherOptions.default with max_depth := usizeMax } }
  else
    { start_path := [],
      options := { FileSearcherOptions.default with max_depth := usizeMax } }

def FileSearcher.overall (s : FileSearcher) (flag : Bool) : FileSearcher :=
  { s with options := { s.options with overall := flag } }

def FileSearcher.max_depth (s : FileSearcher) (m : Nat) : FileSearcher :=
  { s with options := { s.options with max_depth := m } }

/-- `FileSearcher::includes` (the Rust path→string round trip is the
identity on the strings this program passes). -/
def FileSearcher.includes (s : FileSearcher) (l : List String) : FileSearcher :=
  { s with options := { s.options with includes := l } }

def FileSearcher.excludes (s : FileSearcher) (l : List String) : FileSearcher :=
  { s with options := { s.options with excludes := l } }

instance {α β : Type} [DecidableEq α] [DecidableEq β] : DecidableEq (Except α β) := fun a b =>
  match a, b with
  | Except.ok x, Except.ok y =>
    if h : x = y then isTrue (by rw [h]) else isFalse (by simp [h])
  | Except.error x, Except.error y =>
    if h : x = y then isTrue (by rw [h]) else isFalse (by simp [h])
  | Except.ok _, Except.error _ => isFalse (fun h => Except.noConfusion h)
  | Except.error _, Except.ok _ => isFalse (fun h => Except.noConfusion h)

/-- `InnerEntryPath` of `src/fs.rs`. -/
inductive InnerEntryPath where
  | path (p : FPath)
  | deferredPath (p : FPath)
deriving Repr, DecidableEq

/-- The iterator state `IntoIter` of `src/fs.rs`.  `pending_paths` is used
by the source only through `push_front`/`pop_front`, so a plain list with
the head as the front is a faithful model; `current_read_directory` holds
the not-yet-consumed items of the open listing. -/
structure IntoIter where
  options : FileSearcherOptions
  pending_paths : List InnerEntryPath
  current_read_directory : Option (List (Except Nat FPath))
  offset_depth : Nat
deriving Repr, DecidableEq

/-- `FileSearcher::into_iter`. -/
def FileSearcher.intoIter (s : FileSearcher) : IntoIter :=
  { options := s.options,
    offset_depth := s.start_path.length,
    pending_paths := [InnerEntryPath.path s.start_path],
    current_read_directory := none }

/-- The `for entry_result in read_dir` loop at the top of `inner_next`:
walk the remaining listing items, pushing each existing entry within the
depth bound to the front of the pending queue; stop at the first failed
item, returning it together with the still-open remainder of the listing. -/
def readListing (fs : Fs) (opts : FileSearcherOptions) (offset : Nat) :
    List (Except Nat FPath) → List InnerEntryPath →
    List InnerEntryPath ⊕ (Nat × List (Except Nat FPath) × List InnerEntryPath)
  | [], pending => Sum.inl pending
  | Except.ok p :: rest, pending =>
    if (fs.isFile p || fs.isDir p) && (p.length - offset ≤ opts.max_depth) then
      readListing fs opts offset rest (InnerEntryPath.path p :: pending)
    else
      readListing fs opts offset rest pending
  | Except.error e :: rest, pending => Sum.inr (e, rest, pending)

/-- `IntoIter::inner_next` of `src/fs.rs`, fuel-indexed (one unit of fuel
per iteration of its `while` loop; exhausted fuel reports the sequence as
finished). -/
def innerNext (fs : Fs) : Nat → IntoIter → Option (Except Nat FPath) × IntoIter
  | 0, s => (none, s)
  | fuel + 1, s =>
    if s.pending_paths ≠ [] ∨ s.current_read_directory.isSome then
      match s.current_read_directory with
      | some items =>
        match readListing fs s.options s.offset_depth items s.pending_paths with
        | Sum.inl pending' =>
          innerNext fs fuel { s with current_read_directory := none, pending_paths := pending' }
        | Sum.inr (e, rest, pending') =>
          (some (Except.error e),
           { s with current_read_directory := some rest, pending_paths := pending' })
      | none =>
        match s.pending_paths with
        | [] => (none, s)
        | InnerEntryPath.deferredPath p :: rest =>
          (some (Except.ok p), { s with pending_paths := rest })
        | InnerEntryPath.path p :: rest =>
          if fs.isDir p then
            match fs.readDir p with
            | Except.ok items =>
              if s.options.overall then
                innerNext fs fuel
                  { s with pending_paths := InnerEntryPath.deferredPath p :: rest,
                           current_read_directory := some items }
              else
                (some (Except.ok p),
                 { s with pending_paths := rest, current_read_directory := some items })
            | Except.error e => (some (Except.error e), { s with pending_paths := rest })
          else
            (some (Except.ok p), { s with pending_paths := rest })
    else
      (none, s)

/-- The exclude test of `IntoIter::next`. -/
def toExcludes (opts : FileSearcherOptions) (p : FPath) : Bool :=
  if opts.excludes.isEmpty then false
  else opts.excludes.any fun item => strHas (pathChars p) item.data

/-- The include test of `IntoIter::next`. -/
def toIncludes (opts : FileSearcherOptions) (p : FPath) : Bool :=
  if opts.includes.isEmpty then true
  else opts.includes.any fun item => strHas (pathChars p) item.data

/-- The extension test of `IntoIter::next`. -/
def toIncludesExtensions (opts : FileSearcherOptions) (p : FPath) : Bool :=
  if opts.extensions.isEmpty then true
  else
    match extOf p with
    | some fileExtension => opts.extensions.any fun item => fileExtension = item.data
    | none => false

/-- `IntoIter::skip_current_directory`: discard the open listing handle. -/
def skipCurrentDirectory (s : IntoIter) : IntoIter :=
  { s with current_read_directory := none }

/-- `IntoIter::next` (`Iterator` impl in `src/fs.rs`): pull raw entries and
apply the exclude / include / extension filters, pruning the open listing
when a directory is excluded. -/
def iterNext (fs : Fs) : Nat → IntoIter → Option (Except Nat FPath) × IntoIter
  | 0, s => (none, s)
  | fuel + 1, s =>
    match innerNext fs (fuel + 1) s with
    | (none, s') => (none, s')
    | (some (Except.error e), s') => (some (Except.error e), s')
    | (some (Except.ok p), s') =>
      if toExcludes s'.options p then
        iterNext fs fuel (if fs.isDir p then skipCurrentDirectory s' else s')
      else if !toIncludes s'.options p then
        iterNext fs fuel s'
      else if !toIncludesExtensions s'.options p then
        iterNext fs fuel s'
      else
        (some (Except.ok p), s')

/-- `FilterPath::next` for a decorator wrapped directly around the engine:
drop entries rejected by the predicate, pruning the open listing when the
rejected entry is a directory. -/
def filterNext (fs : Fs) (pred : FPath → Bool) :
    Nat → IntoIter → Option (Except Nat FPath) × IntoIter
  | 0, s => (none, s)
  | fuel + 1, s =>
    match iterNext fs (fuel + 1) s with
    | (none, s') => (none, s')
    | (some (Except.error e), s') => (some (Except.error e), s')
    | (some (Except.ok p), s') =>
      if !pred p then
        filterNext fs pred fuel (if fs.isDir p then skipCurrentDirectory s' else s')
      else
        (some (Except.ok p), s')

/-- Collect the whole output sequence of the engine (without decorator). -/
def runIter (fs : Fs) : Nat → IntoIter → List (Except Nat FPath)
  | 0, _ => []
  | fuel + 1, s =>
    match iterNext fs (fuel + 1) s with
    | (none, _) => []
    | (some item, s') => item :: runIter fs fuel s'

/-- Collect the whole output sequence of the engine under a `FilterPath`
decorator. -/
def runFilter (fs : Fs) (pred : FPath → Bool) : Nat → IntoIter → List (Except Nat FPath)
  | 0, _ => []
  | fuel + 1, s =>
    match filterNext fs pred (fuel + 1) s with
    | (none, _) => []
    | (some item, s') => item :: runFilter fs pred fuel s'

/-- A node of the mutable filesystem consumed and mutated by `replicate`.
Files carry byte content (their size is the content length), a modification
time and permission bits; directories carry permission bits, a modification
time and the size their metadata reports. -/
inductive FsNode where
  | file (content : List Nat) (mtime perm : Nat)
  | dir (perm mtime sizeD : Nat)
deriving Repr, DecidableEq

/-- The mutable filesystem: an association list from paths to nodes plus
the current clock, used as the modification time of newly written
entries. -/
structure World where
  nodes : List (FPath × FsNode)
  now : Nat
deriving Repr, DecidableEq

def World.find (w : World) (p : FPath) : Option FsNode :=
  (w.nodes.find? fun e => e.1 == p).map (·.2)

def existsW (w : World) (p : FPath) : Bool :=
  (w.find p).isSome

def isFileW (w : World) (p : FPath) : Bool :=
  match w.find p with
  | some (FsNode.file _ _ _) => true
  | _ => false

def isDirW (w : World) (p : FPath) : Bool :=
  match w.find p with
  | some (FsNode.dir _ _ _) => true
  | _ => false

/-- What `metadata()` reports: `size()`, `modified()` and permission bits. -/
structure FMeta where
  size : Nat
  mtime : Nat
  perm : Nat
deriving Repr, DecidableEq

def World.metaW (w : World) (p : FPath) : Option FMeta :=
  match w.find p with
  | some (FsNode.file c m pm) => some ⟨c.length, m, pm⟩
  | some (FsNode.dir pm m sz) => some ⟨sz, m, pm⟩
  | none => none

/-- Replace the node at a present key in place, otherwise append. -/
def updateNodes (nodes : List (FPath × FsNode)) (p : FPath) (n : FsNode) :
    List (FPath × FsNode) :=
  match nodes with
  | [] => [(p, n)]
  | (q, m) :: rest =>
    if q = p then (p, n) :: rest else (q, m) :: updateNodes rest p n

def World.setNode (w : World) (p : FPath) (n : FsNode) : World :=
  { w with nodes := updateNodes w.nodes p n }

/-- `std::fs::DirBuilder::new().create(p)` (non-recursive): fails when `p`
already exists, is the empty path, or its parent is not an existing
directory. -/
def World.createDir (w : World) (p : FPath) : Except Nat World :=
  if existsW w p then Except.error 17
  else
    match parentOf p with
    | none => Except.error 2
    | some pp =>
      if isDirW w pp then Except.ok (w.setNode p (FsNode.dir 493 w.now 0))
      else Except.error 2

/-- `std::fs::set_permissions`: fails when the path does not exist. -/
def World.setPerm (w : World) (p : FPath) (perm : Nat) : Except Nat World :=
  match w.find p with
  | some (FsNode.file c m _) => Except.ok (w.setNode p (FsNode.file c m perm))
  | some (FsNode.dir _ m sz) => Except.ok (w.setNode p (FsNode.dir perm m sz))
  | none => Except.error 2

/-- `std::fs::copy`: the source must be a regular file; the target must be
writable (an existing file, or a fresh path in an existing directory) and
must not be a directory.  Byte content and permission bits are copied, the
target's modification time becomes the current clock. -/
def World.copyFile (w : World) (src tgt : FPath) : Except Nat World :=
  match w.find src with
  | some (FsNode.file c _ pm) =>
    match w.find tgt with
    | some (FsNode.dir _ _ _) => Except.error 21
    | some (FsNode.file _ _ _) => Except.ok (w.setNode tgt (FsNode.file c w.now pm))
    | none =>
      match parentOf tgt with
      | some pp =>
        if isDirW w pp then Except.ok (w.setNode tgt (FsNode.file c w.now pm))
        else Except.error 2
      | none => Except.error 2
  | _ => Except.error 2

/-- The children of `p` present in the world, in storage order (what
`read_dir` lists). -/
def World.childPaths (w : World) (p : FPath) : List FPath :=
  (w.nodes.filter fun e => !e.1.isEmpty && e.1.dropLast == p).map (·.1)

/-- The traversal engine's read-only view of a `World`. -/
def World.toFs (w : World) : Fs :=
  { isFile := isFileW w,
    isDir := isDirW w,
    readDir := fun p =>
      match w.find p with
      | some (FsNode.dir _ _ _) => Except.ok ((w.childPaths p).map Except.ok)
      | some (FsNode.file _ _ _) => Except.error 20
      | none => Except.error 2 }

/-- Plain split of a byte list at newline (byte 10). -/
def splitNl : List Nat → List (List Nat)
  | [] => [[]]
  | b :: rest =>
    let r := splitNl rest
    if b = 10 then [] :: r
    else
      match r with
      | h :: t => (b :: h) :: t
      | [] => [[b]]

/-- Rust `str::split_terminator('\n')`: like split, but a trailing empty
piece produced by a final newline is dropped. -/
def splitTermNl (bytes : List Nat) : List (List Nat) :=
  let parts := splitNl bytes
  if parts.getLast? = some [] then parts.dropLast else parts

def bytesToStr (l : List Nat) : String :=
  ⟨l.map Char.ofNat⟩

/-- The include/exclude marker-file loading at the top of `replicate`:
`read_to_string` then `split_terminator('\n')`; an absent or unreadable
file yields the empty list. -/
def readLines (w : World) (p : FPath) : List String :=
  match w.find p with
  | some (FsNode.file bytes _ _) => (splitTermNl bytes).map bytesToStr
  | _ => []

/-- The statistics counters of `replicate`. -/
structure SyncStats where
  fileCopied : Nat
  fileDated : Nat
  fileOverrided : Nat
  directoryCreated : Nat
  fileCount : Nat
deriving Repr, DecidableEq

def SyncStats.zero : SyncStats := ⟨0, 0, 0, 0, 0⟩

/-- One line of interactive input: `read_line` returns the next pending
answer, or an empty line at end of input. -/
def popAnswer : List (List Char) → List Char × List (List Char)
  | [] => ([], [])
  | a :: rest => (a, rest)

/-- `input.starts_with("y") || input.starts_with("Y")`. -/
def answerIsYes (a : List Char) : Bool :=
  match a with
  | c :: _ => c == 'y' || c == 'Y'
  | [] => false

/-- The ancestor-repair loop of `replicate` (`main.rs` lines 92-113): walk
upward from `check` while the parent is missing; for each missing ancestor
whose counterpart under `source` is a directory, create it and mirror that
counterpart's permission bits (skipped under dry-run).  Returns the world,
the number of directories created, and the error that aborted the walk, if
any.  Fuel bounds the upward walk; callers pass the length of the starting
path, which the strictly shortening parent chain never exhausts. -/
def ancWalk (source target : FPath) (dry : Bool) :
    Nat → World → FPath → World × Nat × Option Nat
  | 0, w, _ => (w, 0, none)
  | fuel + 1, w, check =>
    match parentOf check with
    | none => (w, 0, none)
    | some parent =>
      if existsW w parent then (w, 0, none)
      else
        match relOf target parent with
        | none => (w, 0, some 1)
        | some relp =>
          if isDirW w (source ++ relp) then
            if dry then ancWalk source target dry fuel w parent
            else
              match w.metaW (source ++ relp) with
              | none => (w, 0, some 2)
              | some m =>
                match w.createDir parent with
                | Except.error e => (w, 0, some e)
                | Except.ok w1 =>
                  match w1.setPerm parent m.perm with
                  | Except.error e => (w1, 0, some e)
                  | Except.ok w2 =>
                    match ancWalk source target dry fuel w2 parent with
                    | (w3, d, err) => (w3, d + 1, err)
          else ancWalk source target dry fuel w parent

/-- The body of `replicate`'s per-entry loop (`main.rs` lines 86-155) for
one yielded source path `p`: compute the relative and target paths, read
the source and target sizes (the target read is the first touch of the
target path), run ancestor repair, then classify and execute.  Returns the
world, the remaining interactive input, and the updated statistics or the
error that aborted the run. -/
def processEntry (source target : FPath) (oq dry : Bool)
    (w : World) (ans : List (List Char)) (st : SyncStats) (p : FPath) :
    World × List (List Char) × Except Nat SyncStats :=
  match relOf source p with
  | none => (w, ans, Except.error 1)
  | some rel =>
    let targetPath := target ++ rel
    match w.metaW p with
    | none => (w, ans, Except.error 2)
    | some sm =>
      match w.metaW targetPath with
      | none => (w, ans, Except.error 2)
      | some tm0 =>
        let sourceSize := sm.size
        let targetSize := tm0.size
        match ancWalk source target dry targetPath.length w targetPath with
        | (w1, _, some e) => (w1, ans, Except.error e)
        | (w1, dirsMade, none) =>
          let st0 := { st with directoryCreated := st.directoryCreated + dirsMade }
          if existsW w1 targetPath then
            match w1.metaW p, w1.metaW targetPath with
            | some sm2, some tm2 =>
              if sm2.mtime > tm2.mtime ∧ sourceSize ≠ targetSize then
                let st1 := { st0 with fileDated := st0.fileDated + 1 }
                if oq then
                  let (a, ans') := popAnswer ans
                  if answerIsYes a then
                    if dry then
                      (w1, ans', Except.ok { st1 with fileCount := st1.fileCount + 1 })
                    else
                      match w1.copyFile p targetPath with
                      | Except.error e => (w1, ans', Except.error e)
                      | Except.ok w2 =>
                        (w2, ans',
                         Except.ok { st1 with fileOverrided := st1.fileOverrided + 1,
                                              fileCount := st1.fileCount + 1 })
                  else (w1, ans', Except.ok { st1 with fileCount := st1.fileCount + 1 })
                else (w1, ans, Except.ok { st1 with fileCount := st1.fileCount + 1 })
              else (w1, ans, Except.ok { st0 with fileCount := st0.fileCount + 1 })
            | _, _ => (w1, ans, Except.error 2)
          else if isFileW w1 p then
            if dry then (w1, ans, Except.ok { st0 with fileCount := st0.fileCount + 1 })
            else
              match w1.copyFile p targetPath with
              | Except.error e => (w1, ans, Except.error e)
              | Except.ok w2 =>
                (w2, ans, Except.ok { st0 with fileCopied := st0.fileCopied + 1,
                                               fileCount := st0.fileCount + 1 })
          else (w1, ans, Except.ok { st0 with fileCount := st0.fileCount + 1 })

/-- The `for source_path in paths_iter` loop of `replicate`.  The iterator
is live: each pull reads the world as mutated so far; failed traversal
items are discarded by the `filter_map(|result| result.ok())` of the
source. -/
def replicateLoop (source target : FPath) (oq dry : Bool) :
    Nat → World → IntoIter → List (List Char) → SyncStats →
    World × List (List Char) × Except Nat SyncStats
  | 0, w, _, ans, st => (w, ans, Except.ok st)
  | fuel + 1, w, it, ans, st =>
    match iterNext w.toFs (fuel + 1) it with
    | (none, _) => (w, ans, Except.ok st)
    | (some (Except.error _), it') =>
      replicateLoop source target oq dry fuel w it' ans st
    | (some (Except.ok p), it') =>
      match processEntry source target oq dry w ans st p with
      | (w', ans', Except.ok st') =>
        replicateLoop source target oq dry fuel w' it' ans' st'
      | (w', ans', Except.error e) => (w', ans', Except.error e)

/-- `replicate` of `src/main.rs` (with `debug = false`): load the marker
files, build the traversal (before any mutation, as in the source), create
the missing target root when the source is a directory (skipped under
dry-run), then run the per-entry loop.  Returns the final world and the
statistics, or the error that aborted the run. -/
def replicate (w : World) (source target : FPath) (oq dry : Bool)
    (ans : List (List Char)) (fuel : Nat) : World × Except Nat SyncStats :=
  let includes := readLines w (source ++ [".acsync_includes"])
  let excludes := readLines w (source ++ [".acsync_excludes"])
  let it := (((FileSearcher.new w.toFs source).includes includes).excludes excludes).intoIter
  if isDirW w source && !existsW w target then
    if dry then
      match replicateLoop source target oq dry fuel w it ans SyncStats.zero with
      | (w', _, r) => (w', r)
    else
      match w.metaW source with
      | none => (w, Except.error 2)
      | some sm =>
        match w.createDir target with
        | Except.error e => (w, Except.error e)
        | Except.ok w1 =>
          match w1.setPerm target sm.perm with
          | Except.error e => (w1, Except.error e)
          | Except.ok w2 =>
            match replicateLoop source target oq dry fuel w2 it ans
                { SyncStats.zero with directoryCreated := 1 } with
            | (w', _, r) => (w', r)
  else
    match replicateLoop source target oq dry fuel w it ans SyncStats.zero with
    | (w', _, r) => (w', r)

/-- Specification mirror of `replicateLoop` for the completion claim: it
pulls and processes exactly as the loop does, and asserts at every
processed entry that the entry's destination path existed at that moment. -/
def targetsExistedCheck (source target : FPath) (oq dry : Bool) :
    Nat → World → IntoIter → List (List Char) → SyncStats → Bool
  | 0, _, _, _, _ => true
  | fuel + 1, w, it, ans, st =>
    match iterNext w.toFs (fuel + 1) it with
    | (none, _) => true
    | (some (Except.error _), it') =>
      targetsExistedCheck source target oq dry fuel w it' ans st
    | (some (Except.ok p), it') =>
      (match relOf source p with
       | some rel => existsW w (target ++ rel)
       | none => false) &&
      (match processEntry source target oq dry w ans st p with
       | (w', ans', Except.ok st') =>
         targetsExistedCheck source target oq dry fuel w' it' ans' st'
       | (_, _, Except.error _) => true)

/-! ### Basic facts about the engine state -/

theorem innerNext_const (fs : Fs) : ∀ fuel s,
    ((innerNext fs fuel s).2.options = s.options) ∧
    ((innerNext fs fuel s).2.offset_depth = s.offset_depth) := by
  intro fuel
  induction fuel with
  | zero => exact fun s => ⟨rfl, rfl⟩
  | succ n ih =>
    intro s
    rw [innerNext]
    split
    · split
      · split
        · exact ih _
        · exact ⟨rfl, rfl⟩
      · split
        · exact ⟨rfl, rfl⟩
        · exact ⟨rfl, rfl⟩
        · split
          · split
            · split
              · exact ih _
              · exact ⟨rfl, rfl⟩
            · exact ⟨rfl, rfl⟩
          · exact ⟨rfl, rfl⟩
    · exact ⟨rfl, rfl⟩

theorem iterNext_const (fs : Fs) : ∀ fuel s,
    ((iterNext fs fuel s).2.options = s.options) ∧
    ((iterNext fs fuel s).2.offset_depth = s.offset_depth) := by
  intro fuel
  induction fuel with
  | zero => exact fun s => ⟨rfl, rfl⟩
  | succ n ih =>
    intro s
    rw [iterNext]
    have hc := innerNext_const fs (n + 1) s
    split
    · next heq =>
      rw [show (innerNext fs (n + 1) s).2 = _ from congrArg Prod.snd heq] at hc
      exact hc
    · next heq =>
      rw [show (innerNext fs (n + 1) s).2 = _ from congrArg Prod.snd heq] at hc
      exact hc
    · next p s' heq =>
      rw [show (innerNext fs (n + 1) s).2 = s' from congrArg Prod.snd heq] at hc
      split
      · have h2 := ih (if fs.isDir p then skipCurrentDirectory s' else s')
        constructor
        · rw [h2.1]
          split
          · exact hc.1
          · exact hc.1
        · rw [h2.2]
          split
          · exact hc.2
          · exact hc.2
      · split
        · have h2 := ih s'
          exact ⟨h2.1.trans hc.1, h2.2.trans hc.2⟩
        · split
          · have h2 := ih s'
            exact ⟨h2.1.trans hc.1, h2.2.trans hc.2⟩
          · exact hc

theorem iterNext_ok_filters (fs : Fs) : ∀ fuel s p s',
    iterNext fs fuel s = (some (Except.ok p), s') →
    toExcludes s.options p = false ∧ toIncludes s.options p = true ∧
      toIncludesExtensions s.options p = true := by
  intro fuel
  induction fuel with
  | zero => intro s p s' h; exact absurd (congrArg Prod.fst h) (by simp [iterNext])
  | succ n ih =>
    intro s p s' h
    rw [iterNext] at h
    have hc := innerNext_const fs (n + 1) s
    split at h
    · exact absurd (congrArg Prod.fst h) (by simp)
    · exact absurd (congrArg Prod.fst h) (by simp)
    · next q s1 heq =>
      have hopts : s1.options = s.options := by
        rw [show (innerNext fs (n + 1) s).2 = s1 from congrArg Prod.snd heq] at hc
        exact hc.1
      split at h
      · have h2 := ih _ _ _ h
        have : (if fs.isDir q then skipCurrentDirectory s1 else s1).options = s.options := by
          split
          · exact hopts
          · exact hopts
        rwa [this] at h2
      · split at h
        · have h2 := ih _ _ _ h
          rwa [hopts] at h2
        · split at h
          · have h2 := ih _ _ _ h
            rwa [hopts] at h2
          · next hexc hinc hext =>
            have hqp : q = p := by
              have := congrArg Prod.fst h
              simp at this
              exact this
            subst hqp
            rw [hopts] at hexc hinc hext
            refine ⟨by simpa using hexc, ?_, ?_⟩
            · simpa using hinc
            · simpa using hext

theorem runIter_ok_filters (fs : Fs) : ∀ fuel s p,
    Except.ok p ∈ runIter fs fuel s →
    toExcludes s.options p = false ∧ toIncludes s.options p = true ∧
      toIncludesExtensions s.options p = true := by
  intro fuel
  induction fuel with
  | zero => intro s p h; exact absurd h (by simp [runIter])
  | succ n ih =>
    intro s p h
    rw [runIter] at h
    split at h
    · exact absurd h (List.not_mem_nil _)
    · next item s' heq =>
      rcases List.mem_cons.mp h with h1 | h1
      · exact iterNext_ok_filters fs (n + 1) s p s' (by rw [heq, ← h1])
      · have hc := iterNext_const fs (n + 1) s
        rw [show (iterNext fs (n + 1) s).2 = s' from congrArg Prod.snd heq] at hc
        have h2 := ih s' p h1
        rwa [hc.1] at h2

/-! ### Claim C5: construction with a nonexistent root -/

/-- A filesystem with no entries at all, used to exercise the nonexistent
root fallback of `FileSearcher::new`. -/
def fsC5 : Fs :=
  { isFile := fun _ => false, isDir := fun _ => false, readDir := fun _ => Except.error 2 }

/-- C5 counterexample: for the root `x`, which is neither an existing file
nor an existing directory, the constructed engine's iteration is NOT the
empty sequence — it yields one item, `Ok` of the empty fallback path. -/
theorem c5_nonexistent_root_counterexample :
    fsC5.isFile ["x"] = false ∧ fsC5.isDir ["x"] = false ∧
      runIter fsC5 5 (FileSearcher.new fsC5 ["x"]).intoIter ≠ [] := by
  refine ⟨rfl, rfl, ?_⟩
  decide

/-- C5 amended: for a root that is neither an existing file nor an existing
directory, the engine is still constructible (falling back to the default,
empty start path) and its iteration yields exactly one item — `Ok` of the
empty path — and in particular no actual filesystem entry, provided the
empty path itself names no directory. -/
theorem c5_nonexistent_root_yields_empty_path (fs : Fs) (root : FPath) (fuel : Nat)
    (hf : fs.isFile root = false) (hd : fs.isDir root = false)
    (hde : fs.isDir [] = false) :
    runIter fs (fuel + 2) (FileSearcher.new fs root).intoIter = [Except.ok []] := by
  have hnew : FileSearcher.new fs root =
      { start_path := [],
        options := { FileSearcherOptions.default with max_depth := usizeMax } } := by
    unfold FileSearcher.new
    rw [hf, hd]
    rfl
  rw [hnew]
  show runIter fs (fuel + 1 + 1) _ = _
  rw [runIter]
  rw [show fuel + 1 = fuel + 1 from rfl]
  simp only [iterNext, innerNext, FileSearcher.intoIter]
  simp [hde, toExcludes, toIncludes, toIncludesExtensions, FileSearcherOptions.default,
    runIter, iterNext, innerNext]

/-- C5 witness for the amended theorem, at the concrete empty filesystem. -/
theorem c5_witness :
    runIter fsC5 5 (FileSearcher.new fsC5 ["x"]).intoIter = [Except.ok []] :=
  c5_nonexistent_root_yields_empty_path fsC5 ["x"] 3 rfl rfl rfl

/-! ### Claim C8: the extension allow-list -/

/-- A world with a root directory `r` holding an extensionless directory
`sub` (containing `f.txt`) and a file `g.md`. -/
def wC8 : World :=
  { nodes := [(["r"], FsNode.dir 493 1 0),
              (["r", "sub"], FsNode.dir 493 1 0),
              (["r", "sub", "f.txt"], FsNode.file [1] 1 420),
              (["r", "g.md"], FsNode.file [2] 1 420)],
    now := 9 }

/-- An engine state over `wC8` rooted at `r`, with the extension allow-list
`txt` configured and no include/exclude filters. -/
def itC8 : IntoIter :=
  { options := { FileSearcherOptions.default with max_depth := usizeMax, extensions := ["txt"] },
    offset_depth := 1,
    pending_paths := [InnerEntryPath.path ["r"]],
    current_read_directory := none }

/-- C8 counterexample: with extensions `[txt]` configured, the directory
`r/sub` passes the include and exclude filters (none are configured) and
yet is not emitted — directories are NOT exempt from the extension filter.
Its child `r/sub/f.txt` is still emitted, so the dropped directory's
subtree is still traversed. -/
theorem c8_extension_filter_counterexample :
    wC8.toFs.isDir ["r", "sub"] = true ∧
      itC8.options.extensions ≠ [] ∧
      toExcludes itC8.options ["r", "sub"] = false ∧
      toIncludes itC8.options ["r", "sub"] = true ∧
      Except.ok ["r", "sub"] ∉ runIter wC8.toFs 20 itC8 ∧
      Except.ok ["r", "sub", "f.txt"] ∈ runIter wC8.toFs 20 itC8 := by
  refine ⟨rfl, by simp [itC8], rfl, rfl, by decide, by decide⟩

/-- C8 amended: when an extension allow-list is configured, an entry —
file or directory alike — is kept only if its path has an extension that
exactly matches one of the configured extensions; directories are subject
to the same filter (so an extensionless directory is dropped), though
their children are still traversed. -/
theorem c8_extension_filter_bounds_all_entries (fs : Fs) (fuel : Nat) (s : IntoIter)
    (hne : s.options.extensions ≠ []) (p : FPath)
    (hmem : Except.ok p ∈ runIter fs fuel s) :
    ∃ ext, extOf p = some ext ∧ ext ∈ s.options.extensions.map String.data := by
  have h := (runIter_ok_filters fs fuel s p hmem).2.2
  unfold toIncludesExtensions at h
  rw [if_neg (by simpa using hne)] at h
  cases hext : extOf p with
  | none => rw [hext] at h; exact absurd h (by simp)
  | some e =>
    rw [hext] at h
    rcases List.any_eq_true.mp h with ⟨item, hitem, heq⟩
    exact ⟨e, rfl, by
      rcases of_decide_eq_true heq with h'
      exact h' ▸ List.mem_map_of_mem String.data hitem⟩

/-- C8 witness: the amended theorem applied to the concrete run over
`wC8`, at the emitted file `r/sub/f.txt`. -/
theorem c8_witness :
    ∃ ext, extOf ["r", "sub", "f.txt"] = some ext ∧
      ext ∈ itC8.options.extensions.map String.data :=
  c8_extension_filter_bounds_all_entries wC8.toFs 20 itC8 (by simp [itC8])
    ["r", "sub", "f.txt"] (by decide)

/-! ### Claim C7: exclude substrings -/

theorem strHas_nil_needle (l : List Char) : strHas l [] = true := by
  cases l with
  | nil => rw [strHas]; simp [List.isPrefixOf]
  | cons c t => rw [strHas]; simp [List.isPrefixOf]

theorem strHas_mono (hay ext needle : List Char)
    (h : strHas hay needle = true) : strHas (hay ++ ext) needle = true := by
  induction hay with
  | nil =>
    rw [strHas] at h
    have : needle = [] := by
      have h2 := List.isPrefixOf_iff_prefix.mp h
      obtain ⟨u, hu⟩ := h2
      exact List.append_eq_nil.mp hu |>.1
    rw [this]
    exact strHas_nil_needle ([] ++ ext)
  | cons c t ih =>
    rw [strHas] at h
    rw [show (c :: t) ++ ext = c :: (t ++ ext) from rfl, strHas]
    rcases Bool.or_eq_true_iff.mp h with h1 | h1
    · have hp := List.isPrefixOf_iff_prefix.mp h1
      have h2 : needle.isPrefixOf (c :: (t ++ ext)) = true := by
        have := hp.trans (List.prefix_append (c :: t) ext)
        rw [List.isPrefixOf_iff_prefix]
        simpa using this
      rw [h2]
      simp
    · rw [ih h1]
      simp

theorem pathChars_extends : ∀ (d t : FPath), ∃ ext, pathChars (d ++ t) = pathChars d ++ ext := by
  intro d
  induction d with
  | nil => exact fun t => ⟨pathChars t, by simp [pathChars]⟩
  | cons s d' ih =>
    intro t
    cases d' with
    | nil =>
      cases t with
      | nil => exact ⟨[], by simp⟩
      | cons a t' => exact ⟨'/' :: pathChars (a :: t'), by simp [pathChars]⟩
    | cons b d'' =>
      obtain ⟨ext, hext⟩ := ih t
      rw [List.cons_append] at hext
      exact ⟨ext, by simp [pathChars, hext]⟩

/-- C7: for every configured exclude substring, no emitted entry's path
string contains that substring, and no entry lying at or below a path
whose string contains that substring is ever emitted — in particular a
whole excluded subtree produces zero entries. -/
theorem c7_exclude_suppresses_subtree (fs : Fs) (fuel : Nat) (s : IntoIter) (pat : String)
    (hpat : pat ∈ s.options.excludes) :
    (∀ p, Except.ok p ∈ runIter fs fuel s → strHas (pathChars p) pat.data = false) ∧
      (∀ d p, strHas (pathChars d) pat.data = true → d <+: p →
        Except.ok p ∉ runIter fs fuel s) := by
  have base : ∀ p, Except.ok p ∈ runIter fs fuel s → strHas (pathChars p) pat.data = false := by
    intro p hmem
    have h := (runIter_ok_filters fs fuel s p hmem).1
    unfold toExcludes at h
    rw [if_neg (by simp; exact List.ne_nil_of_mem hpat)] at h
    have h2 := List.any_eq_false.mp (by simpa using h) pat hpat
    simpa using h2
  refine ⟨base, ?_⟩
  intro d p hd hdp hmem
  obtain ⟨t, ht⟩ := hdp
  obtain ⟨ext, hext⟩ := pathChars_extends d t
  have hh := strHas_mono (pathChars d) ext pat.data hd
  rw [← hext, ht] at hh
  rw [base p hmem] at hh
  exact absurd hh (by simp)

/-- A world with root `r` whose subtree `r/sub` (holding `r/sub/f.txt`) is
excluded, and a surviving sibling file `r/keep.md`. -/
def wC7 : World :=
  { nodes := [(["r"], FsNode.dir 493 1 0),
              (["r", "sub"], FsNode.dir 493 1 0),
              (["r", "sub", "f.txt"], FsNode.file [1] 1 420),
              (["r", "keep.md"], FsNode.file [2] 1 420)],
    now := 9 }

/-- An engine state over `wC7` rooted at `r` with the exclude substring
`sub` configured. -/
def itC7 : IntoIter :=
  { options := { FileSearcherOptions.default with max_depth := usizeMax, excludes := ["sub"] },
    offset_depth := 1,
    pending_paths := [InnerEntryPath.path ["r"]],
    current_read_directory := none }

/-- C7 witness: in the concrete run over `wC7`, the excluded directory's
descendant `r/sub/f.txt` is not emitted. -/
theorem c7_witness : Except.ok ["r", "sub", "f.txt"] ∉ runIter wC7.toFs 20 itC7 :=
  (c7_exclude_suppresses_subtree wC7.toFs 20 itC7 "sub" (by simp [itC7])).2
    ["r", "sub"] ["r", "sub", "f.txt"] (by decide) (by decide)

/-! ### Claim C6: the depth bound -/

/-- The paths held in the pending queue (of either variant). -/
def pendPaths : List InnerEntryPath → List FPath
  | [] => []
  | InnerEntryPath.path p :: r => p :: pendPaths r
  | InnerEntryPath.deferredPath p :: r => p :: pendPaths r

/-- Every queued path is within the depth bound. -/
def depthOK (s : IntoIter) : Prop :=
  ∀ q ∈ pendPaths s.pending_paths, q.length - s.offset_depth ≤ s.options.max_depth

theorem readListing_depth (fs : Fs) (opts : FileSearcherOptions) (offset : Nat) :
    ∀ items pending,
      (∀ q ∈ pendPaths pending, q.length - offset ≤ opts.max_depth) →
      (match readListing fs opts offset items pending with
       | Sum.inl pend' => ∀ q ∈ pendPaths pend', q.length - offset ≤ opts.max_depth
       | Sum.inr (_, _, pend') => ∀ q ∈ pendPaths pend', q.length - offset ≤ opts.max_depth) := by
  intro items
  induction items with
  | nil => intro pending h; exact h
  | cons it rest ih =>
    intro pending h
    cases it with
    | ok p =>
      rw [readListing]
      by_cases hcond :
          ((fs.isFile p || fs.isDir p) && decide (p.length - offset ≤ opts.max_depth)) = true
      · rw [if_pos hcond]
        apply ih
        intro q hq
        rw [pendPaths] at hq
        rcases List.mem_cons.mp hq with h1 | h1
        · subst h1
          have h2 := hcond
          simp at h2
          omega
        · exact h q h1
      · rw [if_neg hcond]
        exact ih pending h
    | error e =>
      rw [readListing]
      exact h

theorem innerNext_depth (fs : Fs) : ∀ fuel s,
    depthOK s →
    depthOK (innerNext fs fuel s).2 ∧
      (∀ p, (innerNext fs fuel s).1 = some (Except.ok p) →
        p.length - s.offset_depth ≤ s.options.max_depth) := by
  intro fuel
  induction fuel with
  | zero => intro s h; exact ⟨h, fun p hp => absurd hp (by simp [innerNext])⟩
  | succ n ih =>
    intro s h
    rw [innerNext]
    split
    · split
      · next items heq =>
        have hrl := readListing_depth fs s.options s.offset_depth items s.pending_paths h
        split
        · next pend' hgl =>
          rw [hgl] at hrl
          exact ih _ hrl
        · next e rest pend' hgl =>
          rw [hgl] at hrl
          exact ⟨hrl, fun p hp => absurd hp (by simp)⟩
      · split
        · exact ⟨h, fun p hp => absurd hp (by simp)⟩
        · next p rest hpd =>
          constructor
          · intro q hq
            exact h q (by rw [hpd, pendPaths]; exact List.mem_cons_of_mem _ hq)
          · intro p' hp'
            have hpe : p = p' := by simpa using hp'
            subst hpe
            exact h p (by rw [hpd, pendPaths]; exact List.mem_cons_self _ _)
        · next p rest hpd =>
          split
          · split
            · split
              · apply ih
                intro q hq
                rw [pendPaths] at hq
                rcases List.mem_cons.mp hq with h1 | h1
                · subst h1
                  exact h q (by rw [hpd, pendPaths]; exact List.mem_cons_self _ _)
                · exact h q (by rw [hpd, pendPaths]; exact List.mem_cons_of_mem _ h1)
              · constructor
                · intro q hq
                  exact h q (by rw [hpd, pendPaths]; exact List.mem_cons_of_mem _ hq)
                · intro p' hp'
                  have hpe : p = p' := by simpa using hp'
                  subst hpe
                  exact h p (by rw [hpd, pendPaths]; exact List.mem_cons_self _ _)
            · constructor
              · intro q hq
                exact h q (by rw [hpd, pendPaths]; exact List.mem_cons_of_mem _ hq)
              · intro p' hp'
                exact absurd hp' (by simp)
          · constructor
            · intro q hq
              exact h q (by rw [hpd, pendPaths]; exact List.mem_cons_of_mem _ hq)
            · intro p' hp'
              have hpe : p = p' := by simpa using hp'
              subst hpe
              exact h p (by rw [hpd, pendPaths]; exact List.mem_cons_self _ _)
    · exact ⟨h, fun p hp => absurd hp (by simp)⟩

theorem iterNext_depth (fs : Fs) : ∀ fuel s,
    depthOK s →
    depthOK (iterNext fs fuel s).2 ∧
      (∀ p, (iterNext fs fuel s).1 = some (Except.ok p) →
        p.length - s.offset_depth ≤ s.options.max_depth) := by
  intro fuel
  induction fuel with
  | zero => intro s h; exact ⟨h, fun p hp => absurd hp (by simp [iterNext])⟩
  | succ n ih =>
    intro s h
    have hin := innerNext_depth fs (n + 1) s h
    have hc := innerNext_const fs (n + 1) s
    rw [iterNext]
    split
    · next s' heq =>
      rw [heq] at hin
      exact ⟨hin.1, fun p hp => absurd hp (by simp)⟩
    · next e s' heq =>
      rw [heq] at hin
      exact ⟨hin.1, fun p hp => absurd hp (by simp)⟩
    · next q s' heq =>
      rw [heq] at hin hc
      split
      · have h2 := ih (if fs.isDir q then skipCurrentDirectory s' else s') (by
          split
          · exact hin.1
          · exact hin.1)
        constructor
        · exact h2.1
        · intro p hp
          have h3 := h2.2 p hp
          split at h3
          · rwa [show (skipCurrentDirectory s').offset_depth = s.offset_depth from hc.2,
                 show (skipCurrentDirectory s').options = s.options from hc.1] at h3
          · rwa [hc.2, hc.1] at h3
      · split
        · have h2 := ih s' hin.1
          exact ⟨h2.1, fun p hp => by
            have h3 := h2.2 p hp
            rwa [hc.2, hc.1] at h3⟩
        · split
          · have h2 := ih s' hin.1
            exact ⟨h2.1, fun p hp => by
              have h3 := h2.2 p hp
              rwa [hc.2, hc.1] at h3⟩
          · refine ⟨hin.1, fun p hp => ?_⟩
            have hpq : q = p := by simpa using hp
            subst hpq
            exact hin.2 q rfl

theorem runIter_depth (fs : Fs) : ∀ fuel s,
    depthOK s →
    ∀ p, Except.ok p ∈ runIter fs fuel s →
      p.length - s.offset_depth ≤ s.options.max_depth := by
  intro fuel
  induction fuel with
  | zero => intro s _ p hp; exact absurd hp (by simp [runIter])
  | succ n ih =>
    intro s h p hp
    have hd := iterNext_depth fs (n + 1) s h
    have hc := iterNext_const fs (n + 1) s
    rw [runIter] at hp
    split at hp
    · exact absurd hp (List.not_mem_nil _)
    · next item s' heq =>
      rw [heq] at hd hc
      rcases List.mem_cons.mp hp with h1 | h1
      · exact hd.2 p (by rw [← h1])
      · have h2 := ih s' hd.1 p h1
        rwa [hc.2, hc.1] at h2

/-- A three-level world: root `r`, directory `r/x` at depth 1, file
`r/x/y` at depth 2. -/
def wC6 : World :=
  { nodes := [(["r"], FsNode.dir 493 1 0),
              (["r", "x"], FsNode.dir 493 1 0),
              (["r", "x", "y"], FsNode.file [1] 1 420)],
    now := 9 }

/-- The engine over `wC6` rooted at `r` with `max_depth 1` configured
through the builder. -/
def itC6 : IntoIter :=
  (FileSearcher.max_depth
    { start_path := ["r"],
      options := { FileSearcherOptions.default with max_depth := usizeMax } } 1).intoIter

/-- C6: with a finite `max_depth` configured through the builder, every
emitted entry satisfies `depth(entry) ≤ max_depth` where the depth is the
entry's segment count minus the root's segment count; no path beyond the
bound — in particular no descendant of a discarded too-deep entry — is
ever emitted; and (concretely, over `wC6`) an entry at exactly the
configured bound is still emitted while its child beyond the bound is
not. -/
theorem c6_max_depth_bound (fsr : FileSearcher) (m : Nat) (fs : Fs) (fuel : Nat) :
    (∀ p, Except.ok p ∈ runIter fs fuel (fsr.max_depth m).intoIter →
        p.length - fsr.start_path.length ≤ m) ∧
      (∀ p r, m < p.length - fsr.start_path.length → p <+: r →
        Except.ok r ∉ runIter fs fuel (fsr.max_depth m).intoIter) ∧
      (Except.ok ["r", "x"] ∈ runIter wC6.toFs 20 itC6 ∧
        Except.ok ["r", "x", "y"] ∉ runIter wC6.toFs 20 itC6 ∧
        (["r", "x"] : FPath).length - (["r"] : FPath).length = 1 ∧
        itC6.options.max_depth = 1) := by
  have hbase : ∀ p, Except.ok p ∈ runIter fs fuel (fsr.max_depth m).intoIter →
      p.length - fsr.start_path.length ≤ m := by
    intro p hp
    have h := runIter_depth fs fuel (fsr.max_depth m).intoIter
      (by
        intro q hq
        have : q = fsr.start_path := by
          simpa [FileSearcher.intoIter, FileSearcher.max_depth, pendPaths] using hq
        subst this
        simp [FileSearcher.intoIter, FileSearcher.max_depth]) p hp
    simpa [FileSearcher.intoIter, FileSearcher.max_depth] using h
  refine ⟨hbase, ?_, by decide, by decide, by decide, by decide⟩
  intro p r hm hpr hmem
  have h1 := hbase r hmem
  obtain ⟨t, ht⟩ := hpr
  have h2 : p.length ≤ r.length := by
    rw [← ht]
    simp
  omega

/-! ### Claim C10: per-entry listing errors do not abort sibling enumeration -/

/-- The queue-pushing effect of consuming a run of successful listing
items: each existing, depth-bounded path is pushed to the front. -/
def pushKept (fs : Fs) (opts : FileSearcherOptions) (offset : Nat) :
    List FPath → List InnerEntryPath → List InnerEntryPath
  | [], pending => pending
  | p :: ps, pending =>
    if (fs.isFile p || fs.isDir p) && (p.length - offset ≤ opts.max_depth) then
      pushKept fs opts offset ps (InnerEntryPath.path p :: pending)
    else pushKept fs opts offset ps pending

theorem readListing_error_split (fs : Fs) (opts : FileSearcherOptions) (offset : Nat)
    (e : Nat) (rest : List (Except Nat FPath)) :
    ∀ (okpre : List FPath) (pending : List InnerEntryPath),
      readListing fs opts offset (okpre.map Except.ok ++ Except.error e :: rest) pending =
        Sum.inr (e, rest, pushKept fs opts offset okpre pending) := by
  intro okpre
  induction okpre with
  | nil => intro pending; rw [List.map_nil, List.nil_append, readListing, pushKept]
  | cons p ps ih =>
    intro pending
    rw [List.map_cons, List.cons_append, readListing, pushKept]
    by_cases hcond :
        ((fs.isFile p || fs.isDir p) && decide (p.length - offset ≤ opts.max_depth)) = true
    · rw [if_pos hcond, if_pos hcond, ih]
    · rw [if_neg hcond, if_neg hcond, ih]

/-- A filesystem whose root listing is `[Ok r/a, Err 7, Ok r/b]`: one bad
child between two good siblings. -/
def fsC10 : Fs :=
  { isFile := fun p => p == ["r", "a"] || p == ["r", "b"],
    isDir := fun p => p == ["r"],
    readDir := fun p =>
      if p == ["r"] then
        Except.ok [Except.ok ["r", "a"], Except.error 7, Except.ok ["r", "b"]]
      else Except.error 2 }

/-- The engine over `fsC10` rooted at `r` with default options. -/
def itC10 : IntoIter :=
  { options := { FileSearcherOptions.default with max_depth := usizeMax },
    offset_depth := 1,
    pending_paths := [InnerEntryPath.path ["r"]],
    current_read_directory := none }

/-- `itC10` caught in the middle of expanding the root listing: `r/a` has
been consumed and the error entry is next. -/
def itC10e : IntoIter :=
  { itC10 with
      pending_paths := [],
      current_read_directory :=
        some [Except.ok ["r", "a"], Except.error 7, Except.ok ["r", "b"]] }

/-- C10: when one child entry of an open listing fails, the engine yields
exactly one `Err` item for it and keeps the listing handle open positioned
at the not-yet-read remainder (the already-read good siblings having been
queued), so enumeration resumes on the next pull; concretely, over
`fsC10`, the single bad child produces one error item and both good
siblings are still emitted. -/
theorem c10_listing_error_keeps_handle_open (fs : Fs) (s : IntoIter) (fuel : Nat)
    (okpre : List FPath) (e : Nat) (rest : List (Except Nat FPath))
    (hc : s.current_read_directory = some (okpre.map Except.ok ++ Except.error e :: rest)) :
    innerNext fs (fuel + 1) s =
      (some (Except.error e),
        { s with current_read_directory := some rest,
                 pending_paths := pushKept fs s.options s.offset_depth okpre s.pending_paths }) ∧
      runIter fsC10 20 itC10 =
        [Except.ok ["r"], Except.error 7, Except.ok ["r", "b"], Except.ok ["r", "a"]] := by
  constructor
  · rw [innerNext]
    rw [if_pos (Or.inr (by rw [hc]; rfl))]
    rw [hc]
    simp only [readListing_error_split]
  · decide

/-- C10 witness: the theorem at the concrete mid-listing state `itC10e`. -/
theorem c10_witness :
    innerNext fsC10 6 itC10e =
      (some (Except.error 7),
        { itC10e with
            current_read_directory := some [Except.ok ["r", "b"]],
            pending_paths := pushKept fsC10 itC10e.options itC10e.offset_depth
              [["r", "a"]] itC10e.pending_paths }) ∧
      runIter fsC10 20 itC10 =
        [Except.ok ["r"], Except.error 7, Except.ok ["r", "b"], Except.ok ["r", "a"]] :=
  c10_listing_error_keeps_handle_open fsC10 itC10e 5 [["r", "a"]] 7 [Except.ok ["r", "b"]] rfl

/-! ### Claim C2: the target metadata read precedes the exists test -/

theorem metaW_none (w : World) (q : FPath) (h : existsW w q = false) : w.metaW q = none := by
  unfold World.metaW
  cases hf : w.find q with
  | none => rfl
  | some n =>
    exfalso
    unfold existsW at h
    rw [hf] at h
    simp at h

theorem existsW_of_metaW (w : World) (q : FPath) (m : FMeta)
    (h : w.metaW q = some m) : existsW w q = true := by
  unfold World.metaW at h
  unfold existsW
  cases hf : w.find q with
  | none => rw [hf] at h; exact absurd h (by simp)
  | some n => rfl

theorem processEntry_ok_target (source target : FPath) (oq dry : Bool)
    (w : World) (ans : List (List Char)) (st : SyncStats) (p : FPath)
    (w1 : World) (ans1 : List (List Char)) (st1 : SyncStats)
    (h : processEntry source target oq dry w ans st p = (w1, ans1, Except.ok st1)) :
    (match relOf source p with
     | some rel => existsW w (target ++ rel) = true
     | none => False) := by
  cases hrel : relOf source p with
  | none =>
    simp only [processEntry, hrel] at h
    exact absurd (congrArg (fun x => x.2.2) h) (by simp)
  | some rel =>
    cases hm : w.metaW p with
    | none =>
      simp only [processEntry, hrel, hm] at h
      exact absurd (congrArg (fun x => x.2.2) h) (by simp)
    | some sm =>
      cases hm2 : w.metaW (target ++ rel) with
      | none =>
        simp only [processEntry, hrel, hm, hm2] at h
        exact absurd (congrArg (fun x => x.2.2) h) (by simp)
      | some tm => exact existsW_of_metaW w _ tm hm2

/-- C2: in `replicate`'s per-entry body the target path's metadata (its
size) is read before the exists test and before ancestor repair, so (a) an
entry whose destination does not exist makes the body return an error
immediately, and (b) a run of the loop can only complete successfully if
every processed entry's destination path already existed at the moment the
entry was processed. -/
theorem c2_missing_destination_aborts (source target : FPath) (oq dry : Bool) :
    (∀ (w : World) (ans : List (List Char)) (st : SyncStats) (p rel : FPath),
      relOf source p = some rel →
      (w.metaW p).isSome = true →
      existsW w (target ++ rel) = false →
      processEntry source target oq dry w ans st p = (w, ans, Except.error 2)) ∧
      (∀ fuel w it ans st w' ans' st',
        replicateLoop source target oq dry fuel w it ans st = (w', ans', Except.ok st') →
        targetsExistedCheck source target oq dry fuel w it ans st = true) := by
  constructor
  · intro w ans st p rel hrel hsm hmiss
    obtain ⟨sm, hsm'⟩ := Option.isSome_iff_exists.mp hsm
    have hnone := metaW_none w (target ++ rel) hmiss
    simp only [processEntry, hrel, hsm', hnone]
  · intro fuel
    induction fuel with
    | zero => intro w it ans st w' ans' st' _; rfl
    | succ n ih =>
      intro w it ans st w' ans' st' hloop
      rw [replicateLoop] at hloop
      rw [targetsExistedCheck]
      split at hloop
      · rfl
      · exact ih _ _ _ _ _ _ _ hloop
      · next p it' heq =>
        split at hloop
        · next w1 ans1 st1 heq2 =>
          have hokt := processEntry_ok_target source target oq dry w ans st p w1 ans1 st1 heq2
          cases hrel : relOf source p with
          | none => rw [hrel] at hokt; exact absurd hokt not_false
          | some rel =>
            rw [hrel] at hokt
            have hcheck := ih _ _ _ _ _ _ _ hloop
            simp only [hrel, hokt, hcheck, Bool.and_self]
        · next w1 ans1 e heq2 =>
          exact absurd (congrArg (fun x => x.2.2) hloop) (by simp)

/-- The world of the C1 scenario: a source tree `s` containing `s/a`
(holding `s/a/b.txt` with content `X`, byte 88) and the empty directory
`s/c`, an existing filesystem root, and no destination `t`. -/
def wC1 : World :=
  { nodes := [([], FsNode.dir 493 5 0),
              (["s"], FsNode.dir 493 10 0),
              (["s", "a"], FsNode.dir 493 10 0),
              (["s", "a", "b.txt"], FsNode.file [88] 10 420),
              (["s", "c"], FsNode.dir 493 10 0)],
    now := 100 }

/-- C2 witness: the per-entry body over `wC1` for the entry `s/a`, whose
destination `t/a` does not exist, returns the not-found error at once. -/
theorem c2_witness :
    processEntry ["s"] ["t"] false false wC1 [] SyncStats.zero ["s", "a"] =
      (wC1, [], Except.error 2) :=
  (c2_missing_destination_aborts ["s"] ["t"] false false).1 wC1 [] SyncStats.zero
    ["s", "a"] ["a"] (by decide) (by decide) (by decide)

/-! ### Claim C3: the stale classification -/

/-- The metadata a node reports. -/
def FsNode.metaOf : FsNode → FMeta
  | FsNode.file c m pm => ⟨c.length, m, pm⟩
  | FsNode.dir pm m sz => ⟨sz, m, pm⟩

/-- The ancestor-repair walk is a no-op when the starting path has no
parent or its parent already exists. -/
theorem ancWalk_stop (source target : FPath) (dry : Bool) (w : World) (check : FPath)
    (fuel : Nat)
    (h : match parentOf check with
         | none => True
         | some pp => existsW w pp = true) :
    ancWalk source target dry fuel w check = (w, 0, none) := by
  cases fuel with
  | zero => rfl
  | succ n =>
    rw [ancWalk]
    cases hp : parentOf check with
    | none => rfl
    | some pp =>
      rw [hp] at h
      have h' : existsW w pp = true := h
      simp [h']

/-- C3: for a source file entry whose target path exists (on a filesystem
where the target's parent exists, so ancestor repair is a no-op), the
per-entry body classifies it `Stale` — incrementing the stale counter —
exactly when the source modification time is strictly later than the
target's AND the byte sizes differ; in every other case (not newer, or
newer but same size — byte contents are irrelevant) it performs no
mutation, consumes no input, and increments no counter beyond
total-visited. -/
theorem c3_stale_iff_newer_and_size_differs (source target : FPath) (dry : Bool)
    (w : World) (ans : List (List Char)) (st : SyncStats) (p rel : FPath)
    (cs : List Nat) (ms pms : Nat) (nt : FsNode)
    (hrel : relOf source p = some rel)
    (hsm : w.find p = some (FsNode.file cs ms pms))
    (htm : w.find (target ++ rel) = some nt)
    (hpar : match parentOf (target ++ rel) with
            | none => True
            | some pp => existsW w pp = true) :
    processEntry source target false dry w ans st p =
      (w, ans, Except.ok
        (if ms > nt.metaOf.mtime ∧ cs.length ≠ nt.metaOf.size then
          { st with fileDated := st.fileDated + 1, fileCount := st.fileCount + 1 }
         else { st with fileCount := st.fileCount + 1 })) := by
  have hm1 : w.metaW p = some ⟨cs.length, ms, pms⟩ := by
    unfold World.metaW
    rw [hsm]
  have hm2 : w.metaW (target ++ rel) = some nt.metaOf := by
    unfold World.metaW
    rw [htm]
    cases nt <;> rfl
  have hwalk := ancWalk_stop source target dry w (target ++ rel) (target ++ rel).length hpar
  have hex : existsW w (target ++ rel) = true := by
    unfold existsW
    rw [htm]
    rfl
  simp only [processEntry, hrel, hm1, hm2, hwalk, hex, if_true]
  split <;> rfl

/-- The world of the C3 witness: `s/f.txt` is newer and larger than its
existing destination `t/f.txt`. -/
def wC3 : World :=
  { nodes := [([], FsNode.dir 493 5 0),
              (["s"], FsNode.dir 493 10 0),
              (["s", "f.txt"], FsNode.file [1, 2] 50 420),
              (["t"], FsNode.dir 493 10 0),
              (["t", "f.txt"], FsNode.file [9] 10 420)],
    now := 100 }

/-- C3 witness: over `wC3` the newer, size-differing entry is classified
`Stale` — one dated count, one visited count, no mutation. -/
theorem c3_witness :
    processEntry ["s"] ["t"] false false wC3 [] SyncStats.zero ["s", "f.txt"] =
      (wC3, [], Except.ok
        (if 50 > (FsNode.file [9] 10 420).metaOf.mtime ∧
            ([1, 2] : List Nat).length ≠ (FsNode.file [9] 10 420).metaOf.size then
          { SyncStats.zero with fileDated := SyncStats.zero.fileDated + 1,
                                fileCount := SyncStats.zero.fileCount + 1 }
         else { SyncStats.zero with fileCount := SyncStats.zero.fileCount + 1 })) :=
  c3_stale_iff_newer_and_size_differs ["s"] ["t"] false wC3 [] SyncStats.zero
    ["s", "f.txt"] ["f.txt"] [1, 2] 50 420 (FsNode.file [9] 10 420)
    (by decide) (by decide) (by decide) (show existsW wC3 ["t"] = true from rfl)

/-! ### Claim C1: the fresh-destination scenario -/

/-- C1: over the scenario world `wC1` (source `{a/b.txt, c/}`, fresh
destination `t`), a non-dry `replicate` does NOT succeed with the expected
statistics — it aborts with the not-found error raised by the target
metadata read of the first child entry whose destination is missing.  The
`CopyNew`/`CreateDirectory` contract of the specification is unreachable
in the code because of that early read (see `c2_missing_destination_aborts`). -/
theorem c1_scenario_returns_error :
    (replicate wC1 ["s"] ["t"] false false [] 30).2 = Except.error 2 := by
  rfl

/-! ### Claim C9: predicate rejection and subtree pruning -/

/-- The paths of the successful items of a listing. -/
def okPaths : List (Except Nat FPath) → List FPath
  | [] => []
  | Except.ok p :: r => p :: okPaths r
  | Except.error _ :: r => okPaths r

/-- All paths held by the engine state: queued paths plus the successful
items of the open listing. -/
def statePaths (s : IntoIter) : List FPath :=
  pendPaths s.pending_paths ++ okPaths (s.current_read_directory.getD [])

/-- No post-order marker is queued (pre-order runs never create any). -/
def noDeferred (s : IntoIter) : Prop :=
  ∀ p, InnerEntryPath.deferredPath p ∉ s.pending_paths

/-- No held path lies strictly below `d`. -/
def noStrict (d : FPath) (s : IntoIter) : Prop :=
  ∀ q ∈ statePaths s, d.isPrefixOf q = true → q = d

/-- How many held paths lie on the ancestor chain of `d` (being a prefix
of `d`, `d` itself included). -/
def chainCnt (d : FPath) (s : IntoIter) : Nat :=
  (statePaths s).countP fun q => q.isPrefixOf d

/-- The invariant before `d` has been pruned: at most one chain occurrence. -/
def invC9 (d : FPath) (s : IntoIter) : Prop :=
  noDeferred s ∧ noStrict d s ∧ chainCnt d s ≤ 1

/-- The invariant after `d` has been pruned: no chain occurrence at all. -/
def invC9z (d : FPath) (s : IntoIter) : Prop :=
  noDeferred s ∧ noStrict d s ∧ chainCnt d s = 0

/-- Well-formedness of a filesystem as `read_dir` guarantees it: a
directory's listing has no duplicate successful entries, and each one is
the directory's path extended by one segment. -/
def treeFs (fs : Fs) : Prop :=
  ∀ p items, fs.readDir p = Except.ok items →
    (okPaths items).Nodup ∧ ∀ c ∈ okPaths items, ∃ x, c = p ++ [x]

theorem countP_le_one_of_nodup (a : FPath) : ∀ (l : List FPath) (P : FPath → Bool),
    l.Nodup → (∀ q ∈ l, P q = true → q = a) → l.countP P ≤ 1 := by
  intro l
  induction l with
  | nil => intro P _ _; simp
  | cons b t ih =>
    intro P hnd hall
    rw [List.countP_cons]
    by_cases hb : P b = true
    · rw [if_pos hb]
      have hba : b = a := hall b (List.mem_cons_self _ _) hb
      have ht : t.countP P = 0 := by
        rw [List.countP_eq_zero]
        intro q hq hPq
        have hqa : q = a := hall q (List.mem_cons_of_mem _ hq) hPq
        exact (List.nodup_cons.mp hnd).1 (by rw [hba, ← hqa]; exact hq)
      omega
    · rw [if_neg hb]
      have := ih P (List.nodup_cons.mp hnd).2 fun q hq => hall q (List.mem_cons_of_mem _ hq)
      omega

theorem prefix_snoc (d p : FPath) (x : String) (h : d.isPrefixOf (p ++ [x]) = true) :
    d.isPrefixOf p = true ∨ d = p ++ [x] := by
  have hp := List.isPrefixOf_iff_prefix.mp h
  by_cases hl : d.length ≤ p.length
  · left
    rw [List.isPrefixOf_iff_prefix]
    exact List.prefix_of_prefix_length_le hp (List.prefix_append p [x]) hl
  · right
    have hlen : d.length = (p ++ [x]).length := by
      have := hp.length_le
      simp at this ⊢
      omega
    exact List.IsPrefix.eq_of_length hp hlen

/-- `isPrefixOf` is reflexive and transitive (in `Bool` form). -/
theorem isPrefixOf_refl (l : FPath) : l.isPrefixOf l = true := by
  rw [List.isPrefixOf_iff_prefix]
theorem isPrefixOf_trans {a b c : FPath} (h1 : a.isPrefixOf b = true)
    (h2 : b.isPrefixOf c = true) : a.isPrefixOf c = true := by
  rw [List.isPrefixOf_iff_prefix] at h1 h2 ⊢
  exact h1.trans h2

theorem readListing_paths (fs : Fs) (opts : FileSearcherOptions) (offset : Nat)
    (P : FPath → Bool) : ∀ (items : List (Except Nat FPath)) (pending : List InnerEntryPath),
    (match readListing fs opts offset items pending with
     | Sum.inl pend' =>
       (∀ q ∈ pendPaths pend', q ∈ okPaths items ∨ q ∈ pendPaths pending) ∧
         (pendPaths pend').countP P ≤ (okPaths items).countP P + (pendPaths pending).countP P ∧
         (∀ q, InnerEntryPath.deferredPath q ∈ pend' → InnerEntryPath.deferredPath q ∈ pending)
     | Sum.inr (_, rest, pend') =>
       (∀ q ∈ pendPaths pend', q ∈ okPaths items ∨ q ∈ pendPaths pending) ∧
         (pendPaths pend').countP P + (okPaths rest).countP P ≤
           (okPaths items).countP P + (pendPaths pending).countP P ∧
         (∀ q, InnerEntryPath.deferredPath q ∈ pend' → InnerEntryPath.deferredPath q ∈ pending) ∧
         (∀ q ∈ okPaths rest, q ∈ okPaths items)) := by
  intro items
  induction items with
  | nil =>
    intro pending
    rw [readListing]
    exact ⟨fun q hq => Or.inr hq, by simp [okPaths], fun q hq => hq⟩
  | cons it rest ih =>
    intro pending
    cases it with
    | ok p =>
      rw [readListing]
      by_cases hcond :
          ((fs.isFile p || fs.isDir p) && decide (p.length - offset ≤ opts.max_depth)) = true
      · rw [if_pos hcond]
        have hi := ih (InnerEntryPath.path p :: pending)
        split at hi
        · next pend' hgl =>
          refine ⟨?_, ?_, ?_⟩
          · intro q hq
            rcases hi.1 q hq with h1 | h1
            · exact Or.inl (by rw [okPaths]; exact List.mem_cons_of_mem _ h1)
            · rw [pendPaths] at h1
              rcases List.mem_cons.mp h1 with h2 | h2
              · exact Or.inl (by rw [okPaths, h2]; exact List.mem_cons_self _ _)
              · exact Or.inr h2
          · have hc := hi.2.1
            rw [pendPaths, List.countP_cons] at hc
            rw [okPaths, List.countP_cons]
            omega
          · intro q hq
            have := hi.2.2 q hq
            rcases List.mem_cons.mp this with h2 | h2
            · exact absurd h2 (by simp)
            · exact h2
        · next e rest' pend' hgl =>
          refine ⟨?_, ?_, ?_, ?_⟩
          · intro q hq
            rcases hi.1 q hq with h1 | h1
            · exact Or.inl (by rw [okPaths]; exact List.mem_cons_of_mem _ h1)
            · rw [pendPaths] at h1
              rcases List.mem_cons.mp h1 with h2 | h2
              · exact Or.inl (by rw [okPaths, h2]; exact List.mem_cons_self _ _)
              · exact Or.inr h2
          · have hc := hi.2.1
            rw [pendPaths, List.countP_cons] at hc
            rw [okPaths, List.countP_cons]
            omega
          · intro q hq
            have := hi.2.2.1 q hq
            rcases List.mem_cons.mp this with h2 | h2
            · exact absurd h2 (by simp)
            · exact h2
          · intro q hq
            exact (by rw [okPaths]; exact List.mem_cons_of_mem _ (hi.2.2.2 q hq))
      · rw [if_neg hcond]
        have hi := ih pending
        split at hi
        · next pend' hgl =>
          refine ⟨?_, ?_, ?_⟩
          · intro q hq
            rcases hi.1 q hq with h1 | h1
            · exact Or.inl (by rw [okPaths]; exact List.mem_cons_of_mem _ h1)
            · exact Or.inr h1
          · have hc := hi.2.1
            rw [okPaths, List.countP_cons]
            omega
          · exact hi.2.2
        · next e rest' pend' hgl =>
          refine ⟨?_, ?_, ?_, ?_⟩
          · intro q hq
            rcases hi.1 q hq with h1 | h1
            · exact Or.inl (by rw [okPaths]; exact List.mem_cons_of_mem _ h1)
            · exact Or.inr h1
          · have hc := hi.2.1
            rw [okPaths, List.countP_cons]
            omega
          · exact hi.2.2.1
          · intro q hq
            exact (by rw [okPaths]; exact List.mem_cons_of_mem _ (hi.2.2.2 q hq))
    | error e =>
      rw [readListing]
      refine ⟨fun q hq => Or.inr hq, ?_, fun q hq => hq, fun q hq => ?_⟩
      · rw [okPaths]
        omega
      · rw [okPaths]
        exact hq

theorem statePaths_some {s : IntoIter} {items : List (Except Nat FPath)}
    (h : s.current_read_directory = some items) :
    statePaths s = pendPaths s.pending_paths ++ okPaths items := by
  unfold statePaths
  rw [h]
  rfl

theorem statePaths_none {s : IntoIter} (h : s.current_read_directory = none) :
    statePaths s = pendPaths s.pending_paths := by
  unfold statePaths
  rw [h]
  simp [okPaths]

theorem statePaths_mk_none (opts : FileSearcherOptions) (pend : List InnerEntryPath)
    (off : Nat) : statePaths ⟨opts, pend, none, off⟩ = pendPaths pend := by
  unfold statePaths
  simp [okPaths]

theorem innerNext_c9 (fs : Fs) (d : FPath) (hd : fs.isDir d = true) (hwf : treeFs fs) :
    ∀ fuel s, s.options.overall = false → invC9 d s →
    (match innerNext fs fuel s with
     | (some (Except.ok p), s') =>
         (p = d ∧ invC9z d (skipCurrentDirectory s')) ∨
           (d.isPrefixOf p = false ∧ invC9 d s')
     | (_, s') => invC9 d s') := by
  intro fuel
  induction fuel with
  | zero => intro s _ hinv; exact hinv
  | succ n ih =>
    intro s hov hinv
    obtain ⟨hdef, hstr, hcnt⟩ := hinv
    rw [innerNext]
    by_cases hwc : s.pending_paths ≠ [] ∨ s.current_read_directory.isSome = true
    case neg =>
      rw [if_neg hwc]
      exact ⟨hdef, hstr, hcnt⟩
    case pos =>
    rw [if_pos hwc]
    cases heq : s.current_read_directory with
    | some items =>
      have hsp := statePaths_some heq
      have hrl := readListing_paths fs s.options s.offset_depth
        (fun q => q.isPrefixOf d) items s.pending_paths
      dsimp only
      cases hgl : readListing fs s.options s.offset_depth items s.pending_paths with
      | inl pend' =>
        rw [hgl] at hrl
        dsimp only
        apply ih
        · exact hov
        · refine ⟨?_, ?_, ?_⟩
          · intro p hp
            exact hdef p (hrl.2.2 p hp)
          · intro q hq hpre
            have hq' : q ∈ pendPaths pend' := by
              simpa [statePaths, okPaths] using hq
            refine hstr q ?_ hpre
            rw [hsp]
            rcases hrl.1 q hq' with h1 | h1
            · exact List.mem_append_right _ h1
            · exact List.mem_append_left _ h1
          · have h2 := hrl.2.1
            unfold chainCnt at hcnt ⊢
            rw [hsp, List.countP_append] at hcnt
            have hst : statePaths
                { s with current_read_directory := none, pending_paths := pend' } =
                  pendPaths pend' := by
              unfold statePaths
              simp [okPaths]
            rw [hst]
            omega
      | inr trip =>
        obtain ⟨e, rest, pend'⟩ := trip
        rw [hgl] at hrl
        dsimp only
        have hst : statePaths
            { s with current_read_directory := some rest, pending_paths := pend' } =
              pendPaths pend' ++ okPaths rest := by
          unfold statePaths
          rfl
        show invC9 d _
        refine ⟨?_, ?_, ?_⟩
        · intro p hp
          exact hdef p (hrl.2.2.1 p hp)
        · intro q hq hpre
          rw [hst] at hq
          refine hstr q ?_ hpre
          rw [hsp]
          rcases List.mem_append.mp hq with h1 | h1
          · rcases hrl.1 q h1 with h2 | h2
            · exact List.mem_append_right _ h2
            · exact List.mem_append_left _ h2
          · exact List.mem_append_right _ (hrl.2.2.2 q h1)
        · unfold chainCnt at hcnt ⊢
          rw [hsp, List.countP_append] at hcnt
          rw [hst, List.countP_append]
          have h2 := hrl.2.1
          omega
    | none =>
      dsimp only
      cases hpd : s.pending_paths with
      | nil => exact ⟨hdef, hstr, hcnt⟩
      | cons head rest =>
        cases head with
        | deferredPath p =>
          exact absurd (by rw [hpd]; exact List.mem_cons_self _ _) (hdef p)
        | path p =>
          dsimp only
          have hsp : statePaths s = p :: pendPaths rest := by
            rw [statePaths_none heq, hpd]
            rfl
          have hdefr : ∀ q, InnerEntryPath.deferredPath q ∉ rest := by
            intro q hq
            exact hdef q (by rw [hpd]; exact List.mem_cons_of_mem _ hq)
          have hstrr : ∀ q ∈ pendPaths rest, d.isPrefixOf q = true → q = d := by
            intro q hq hpre
            exact hstr q (by rw [hsp]; exact List.mem_cons_of_mem _ hq) hpre
          have hcntr : (pendPaths rest).countP (fun q => q.isPrefixOf d) +
              (if p.isPrefixOf d then 1 else 0) ≤ 1 := by
            unfold chainCnt at hcnt
            rw [hsp, List.countP_cons] at hcnt
            omega
          by_cases hisdir : fs.isDir p = true
          · rw [if_pos hisdir]
            cases hrd : fs.readDir p with
            | ok items =>
              dsimp only
              rw [if_neg (by simp [hov])]
              dsimp only
              by_cases hpd2 : p = d
              · left
                refine ⟨hpd2, ?_, ?_, ?_⟩
                · exact hdefr
                · intro q hq hpre
                  have hq' : q ∈ pendPaths rest := by
                    simpa [statePaths, skipCurrentDirectory, okPaths] using hq
                  exact hstrr q hq' hpre
                · have hst : statePaths (skipCurrentDirectory
                      { s with pending_paths := rest,
                               current_read_directory := some items }) =
                        pendPaths rest := by
                    unfold statePaths skipCurrentDirectory
                    simp [okPaths]
                  unfold chainCnt
                  rw [hst]
                  rw [hpd2, isPrefixOf_refl d, if_pos rfl] at hcntr
                  omega
              · right
                have hnp : d.isPrefixOf p = false := by
                  cases hb : d.isPrefixOf p
                  · rfl
                  · exact absurd (hstr p (by rw [hsp]; exact List.mem_cons_self _ _) hb)
                      (fun h => hpd2 h)
                obtain ⟨hnd_items, hchild⟩ := hwf p items hrd
                have hst : statePaths
                    { s with pending_paths := rest,
                             current_read_directory := some items } =
                      pendPaths rest ++ okPaths items := by
                  unfold statePaths
                  rfl
                refine ⟨hnp, hdefr, ?_, ?_⟩
                · intro q hq hpre
                  rw [hst] at hq
                  rcases List.mem_append.mp hq with h1 | h1
                  · exact hstrr q h1 hpre
                  · obtain ⟨x, hx⟩ := hchild q h1
                    rcases prefix_snoc d p x (by rw [← hx]; exact hpre) with h2 | h2
                    · rw [h2] at hnp
                      exact absurd hnp (by simp)
                    · rw [hx, ← h2]
                · unfold chainCnt
                  rw [hst, List.countP_append]
                  by_cases hpc : p.isPrefixOf d = true
                  · have hrest : (pendPaths rest).countP (fun q => q.isPrefixOf d) = 0 := by
                      rw [hpc, if_pos rfl] at hcntr
                      omega
                    have hitems : (okPaths items).countP (fun q => q.isPrefixOf d) ≤ 1 := by
                      apply countP_le_one_of_nodup (d.take (p.length + 1)) _ _ hnd_items
                      intro q hq hq2
                      obtain ⟨x, hx⟩ := hchild q hq
                      have hql : q.length = p.length + 1 := by
                        rw [hx]
                        simp
                      have h3 := List.prefix_iff_eq_take.mp
                        (List.isPrefixOf_iff_prefix.mp hq2)
                      rw [← hql]
                      exact h3
                    omega
                  · have hitems : (okPaths items).countP (fun q => q.isPrefixOf d) = 0 := by
                      rw [List.countP_eq_zero]
                      intro q hq hq2
                      obtain ⟨x, hx⟩ := hchild q hq
                      apply hpc
                      refine isPrefixOf_trans ?_ hq2
                      rw [hx, List.isPrefixOf_iff_prefix]
                      exact List.prefix_append p [x]
                    omega
            | error e =>
              dsimp only
              show invC9 d _
              refine ⟨hdefr, ?_, ?_⟩
              · intro q hq hpre
                have hq' : q ∈ pendPaths rest := by
                  simpa [statePaths, okPaths, heq] using hq
                exact hstrr q hq' hpre
              · unfold chainCnt
                rw [statePaths_mk_none]
                exact le_trans (Nat.le_add_right _ _) hcntr
          · rw [if_neg hisdir]
            dsimp only
            by_cases hpd2 : p = d
            · rw [hpd2] at hisdir
              exact absurd hd hisdir
            · right
              have hnp : d.isPrefixOf p = false := by
                cases hb : d.isPrefixOf p
                · rfl
                · exact absurd (hstr p (by rw [hsp]; exact List.mem_cons_self _ _) hb)
                    (fun h => hpd2 h)
              refine ⟨hnp, hdefr, ?_, ?_⟩
              · intro q hq hpre
                have hq' : q ∈ pendPaths rest := by
                  simpa [statePaths, okPaths, heq] using hq
                exact hstrr q hq' hpre
              · unfold chainCnt
                rw [statePaths_mk_none]
                exact le_trans (Nat.le_add_right _ _) hcntr

theorem innerNext_c9z (fs : Fs) (d : FPath) (hwf : treeFs fs) :
    ∀ fuel s, s.options.overall = false → invC9z d s →
    (match innerNext fs fuel s with
     | (some (Except.ok p), s') => d.isPrefixOf p = false ∧ invC9z d s'
     | (_, s') => invC9z d s') := by
  intro fuel
  induction fuel with
  | zero => intro s _ hinv; exact hinv
  | succ n ih =>
    intro s hov hinv
    obtain ⟨hdef, hstr, hcnt⟩ := hinv
    unfold chainCnt at hcnt
    have hzero : ∀ q ∈ statePaths s, ¬ (q.isPrefixOf d = true) := by
      intro q hq
      exact List.countP_eq_zero.mp hcnt q hq
    have hnd : ∀ q ∈ statePaths s, d.isPrefixOf q = false := by
      intro q hq
      cases hb : d.isPrefixOf q
      · rfl
      · exfalso
        apply hzero q hq
        rw [hstr q hq hb]
        exact isPrefixOf_refl d
    rw [innerNext]
    by_cases hwc : s.pending_paths ≠ [] ∨ s.current_read_directory.isSome = true
    case neg =>
      rw [if_neg hwc]
      exact ⟨hdef, hstr, hcnt⟩
    case pos =>
    rw [if_pos hwc]
    cases heq : s.current_read_directory with
    | some items =>
      have hsp := statePaths_some heq
      have hrl := readListing_paths fs s.options s.offset_depth
        (fun q => q.isPrefixOf d) items s.pending_paths
      dsimp only
      cases hgl : readListing fs s.options s.offset_depth items s.pending_paths with
      | inl pend' =>
        rw [hgl] at hrl
        dsimp only
        apply ih
        · exact hov
        · refine ⟨?_, ?_, ?_⟩
          · intro p hp
            exact hdef p (hrl.2.2 p hp)
          · intro q hq hpre
            have hq' : q ∈ pendPaths pend' := by
              simpa [statePaths, okPaths] using hq
            refine hstr q ?_ hpre
            rw [hsp]
            rcases hrl.1 q hq' with h1 | h1
            · exact List.mem_append_right _ h1
            · exact List.mem_append_left _ h1
          · have h2 := hrl.2.1
            unfold chainCnt
            rw [hsp, List.countP_append] at hcnt
            rw [statePaths_mk_none]
            omega
      | inr trip =>
        obtain ⟨e, rest, pend'⟩ := trip
        rw [hgl] at hrl
        dsimp only
        have hst : statePaths
            { s with current_read_directory := some rest, pending_paths := pend' } =
              pendPaths pend' ++ okPaths rest := by
          unfold statePaths
          rfl
        show invC9z d _
        refine ⟨?_, ?_, ?_⟩
        · intro p hp
          exact hdef p (hrl.2.2.1 p hp)
        · intro q hq hpre
          rw [hst] at hq
          refine hstr q ?_ hpre
          rw [hsp]
          rcases List.mem_append.mp hq with h1 | h1
          · rcases hrl.1 q h1 with h2 | h2
            · exact List.mem_append_right _ h2
            · exact List.mem_append_left _ h2
          · exact List.mem_append_right _ (hrl.2.2.2 q h1)
        · unfold chainCnt
          rw [hsp, List.countP_append] at hcnt
          rw [hst, List.countP_append]
          have h2 := hrl.2.1
          omega
    | none =>
      dsimp only
      cases hpd : s.pending_paths with
      | nil => exact ⟨hdef, hstr, hcnt⟩
      | cons head rest =>
        cases head with
        | deferredPath p =>
          exact absurd (by rw [hpd]; exact List.mem_cons_self _ _) (hdef p)
        | path p =>
          dsimp only
          have hsp : statePaths s = p :: pendPaths rest := by
            rw [statePaths_none heq, hpd]
            rfl
          have hmemp : p ∈ statePaths s := by
            rw [hsp]
            exact List.mem_cons_self _ _
          have hmemr : ∀ q ∈ pendPaths rest, q ∈ statePaths s := by
            intro q hq
            rw [hsp]
            exact List.mem_cons_of_mem _ hq
          have hdefr : ∀ q, InnerEntryPath.deferredPath q ∉ rest := by
            intro q hq
            exact hdef q (by rw [hpd]; exact List.mem_cons_of_mem _ hq)
          have hcntr : (pendPaths rest).countP (fun q => q.isPrefixOf d) = 0 := by
            rw [List.countP_eq_zero]
            intro q hq
            exact hzero q (hmemr q hq)
          by_cases hisdir : fs.isDir p = true
          · rw [if_pos hisdir]
            cases hrd : fs.readDir p with
            | ok items =>
              dsimp only
              rw [if_neg (by simp [hov])]
              dsimp only
              obtain ⟨hnd_items, hchild⟩ := hwf p items hrd
              have hst : statePaths
                  { s with pending_paths := rest,
                           current_read_directory := some items } =
                    pendPaths rest ++ okPaths items := by
                unfold statePaths
                rfl
              refine ⟨hnd p hmemp, hdefr, ?_, ?_⟩
              · intro q hq hpre
                rw [hst] at hq
                rcases List.mem_append.mp hq with h1 | h1
                · exact hstr q (hmemr q h1) hpre
                · obtain ⟨x, hx⟩ := hchild q h1
                  rcases prefix_snoc d p x (by rw [← hx]; exact hpre) with h2 | h2
                  · rw [hnd p hmemp] at h2
                    exact absurd h2 (by simp)
                  · rw [hx, ← h2]
              · unfold chainCnt
                rw [hst, List.countP_append]
                have hitems : (okPaths items).countP (fun q => q.isPrefixOf d) = 0 := by
                  rw [List.countP_eq_zero]
                  intro q hq hq2
                  obtain ⟨x, hx⟩ := hchild q hq
                  apply hzero p hmemp
                  refine isPrefixOf_trans ?_ hq2
                  rw [hx, List.isPrefixOf_iff_prefix]
                  exact List.prefix_append p [x]
                omega
            | error e =>
              dsimp only
              show invC9z d _
              refine ⟨hdefr, ?_, ?_⟩
              · intro q hq hpre
                have hq' : q ∈ pendPaths rest := by
                  simpa [statePaths, okPaths, heq] using hq
                exact hstr q (hmemr q hq') hpre
              · unfold chainCnt
                rw [statePaths_mk_none]
                exact hcntr
          · rw [if_neg hisdir]
            dsimp only
            refine ⟨hnd p hmemp, hdefr, ?_, ?_⟩
            · intro q hq hpre
              have hq' : q ∈ pendPaths rest := by
                simpa [statePaths, okPaths, heq] using hq
              exact hstr q (hmemr q hq') hpre
            · unfold chainCnt
              rw [statePaths_mk_none]
              exact hcntr

theorem statePaths_skip (s : IntoIter) :
    statePaths (skipCurrentDirectory s) = pendPaths s.pending_paths := by
  unfold statePaths skipCurrentDirectory
  simp [okPaths]

theorem skip_invC9 {d : FPath} {s : IntoIter} (h : invC9 d s) :
    invC9 d (skipCurrentDirectory s) := by
  obtain ⟨hdef, hstr, hcnt⟩ := h
  refine ⟨hdef, ?_, ?_⟩
  · intro q hq hp
    rw [statePaths_skip] at hq
    exact hstr q (by unfold statePaths; exact List.mem_append_left _ hq) hp
  · unfold chainCnt at hcnt ⊢
    unfold statePaths at hcnt
    rw [List.countP_append] at hcnt
    rw [statePaths_skip]
    omega

theorem skip_invC9z {d : FPath} {s : IntoIter} (h : invC9z d s) :
    invC9z d (skipCurrentDirectory s) := by
  obtain ⟨hdef, hstr, hcnt⟩ := h
  refine ⟨hdef, ?_, ?_⟩
  · intro q hq hp
    rw [statePaths_skip] at hq
    exact hstr q (by unfold statePaths; exact List.mem_append_left _ hq) hp
  · unfold chainCnt at hcnt ⊢
    unfold statePaths at hcnt
    rw [List.countP_append] at hcnt
    rw [statePaths_skip]
    omega

theorem iterNext_c9 (fs : Fs) (d : FPath) (hd : fs.isDir d = true) (hwf : treeFs fs) :
    ∀ fuel s, s.options.overall = false →
      toExcludes s.options d = false → toIncludes s.options d = true →
      toIncludesExtensions s.options d = true →
      invC9 d s →
      (match iterNext fs fuel s with
       | (some (Except.ok p), s') =>
           (p = d ∧ invC9z d (skipCurrentDirectory s')) ∨
             (d.isPrefixOf p = false ∧ invC9 d s')
       | (_, s') => invC9 d s') := by
  intro fuel
  induction fuel with
  | zero => intro s _ _ _ _ hinv; exact hinv
  | succ n ih =>
    intro s hov hexc hinc hext hinv
    have hin := innerNext_c9 fs d hd hwf (n + 1) s hov hinv
    have hc := innerNext_const fs (n + 1) s
    rw [iterNext]
    cases hstep : innerNext fs (n + 1) s with
    | mk item s1 =>
      rw [hstep] at hin hc
      cases item with
      | none => exact hin
      | some x =>
        cases x with
        | error e => exact hin
        | ok p =>
          dsimp only
          rcases hin with ⟨hpd, hz⟩ | ⟨hnp, hinv1⟩
          · have he1 : toExcludes s1.options p = false := by
              rw [hc.1, hpd]
              exact hexc
            have he2 : toIncludes s1.options p = true := by
              rw [hc.1, hpd]
              exact hinc
            have he3 : toIncludesExtensions s1.options p = true := by
              rw [hc.1, hpd]
              exact hext
            rw [if_neg (by simp [he1]), if_neg (by simp [he2]), if_neg (by simp [he3])]
            exact Or.inl ⟨hpd, hz⟩
          · have hopts1 : s1.options = s.options := hc.1
            by_cases he : toExcludes s1.options p = true
            · rw [if_pos he]
              have hinv2 : invC9 d (if fs.isDir p then skipCurrentDirectory s1 else s1) := by
                split
                · exact skip_invC9 hinv1
                · exact hinv1
              have hopts2 : (if fs.isDir p then skipCurrentDirectory s1 else s1).options =
                  s.options := by
                split
                · exact hopts1
                · exact hopts1
              exact ih _ (by rw [hopts2]; exact hov) (by rw [hopts2]; exact hexc)
                (by rw [hopts2]; exact hinc) (by rw [hopts2]; exact hext) hinv2
            · rw [if_neg he]
              by_cases hi2 : toIncludes s1.options p = true
              · rw [if_neg (by simp [hi2])]
                by_cases hi3 : toIncludesExtensions s1.options p = true
                · rw [if_neg (by simp [hi3])]
                  exact Or.inr ⟨hnp, hinv1⟩
                · rw [if_pos (by simp [Bool.not_eq_true] at hi3; simp [hi3])]
                  exact ih _ (by rw [hopts1]; exact hov) (by rw [hopts1]; exact hexc)
                    (by rw [hopts1]; exact hinc) (by rw [hopts1]; exact hext) hinv1
              · rw [if_pos (by simp [Bool.not_eq_true] at hi2; simp [hi2])]
                exact ih _ (by rw [hopts1]; exact hov) (by rw [hopts1]; exact hexc)
                  (by rw [hopts1]; exact hinc) (by rw [hopts1]; exact hext) hinv1

theorem iterNext_c9z (fs : Fs) (d : FPath) (hwf : treeFs fs) :
    ∀ fuel s, s.options.overall = false → invC9z d s →
      (match iterNext fs fuel s with
       | (some (Except.ok p), s') => d.isPrefixOf p = false ∧ invC9z d s'
       | (_, s') => invC9z d s') := by
  intro fuel
  induction fuel with
  | zero => intro s _ hinv; exact hinv
  | succ n ih =>
    intro s hov hinv
    have hin := innerNext_c9z fs d hwf (n + 1) s hov hinv
    have hc := innerNext_const fs (n + 1) s
    rw [iterNext]
    cases hstep : innerNext fs (n + 1) s with
    | mk item s1 =>
      rw [hstep] at hin hc
      cases item with
      | none => exact hin
      | some x =>
        cases x with
        | error e => exact hin
        | ok p =>
          dsimp only
          obtain ⟨hnp, hinv1⟩ := hin
          have hopts1 : s1.options = s.options := hc.1
          by_cases he : toExcludes s1.options p = true
          · rw [if_pos he]
            have hinv2 : invC9z d (if fs.isDir p then skipCurrentDirectory s1 else s1) := by
              split
              · exact skip_invC9z hinv1
              · exact hinv1
            have hopts2 : (if fs.isDir p then skipCurrentDirectory s1 else s1).options =
                s.options := by
              split
              · exact hopts1
              · exact hopts1
            exact ih _ (by rw [hopts2]; exact hov) hinv2
          · rw [if_neg he]
            by_cases hi2 : toIncludes s1.options p = true
            · rw [if_neg (by simp [hi2])]
              by_cases hi3 : toIncludesExtensions s1.options p = true
              · rw [if_neg (by simp [hi3])]
                exact ⟨hnp, hinv1⟩
              · rw [if_pos (by simp [Bool.not_eq_true] at hi3; simp [hi3])]
                exact ih _ (by rw [hopts1]; exact hov) hinv1
            · rw [if_pos (by simp [Bool.not_eq_true] at hi2; simp [hi2])]
              exact ih _ (by rw [hopts1]; exact hov) hinv1

theorem filterNext_const (fs : Fs) (pred : FPath → Bool) : ∀ fuel s,
    ((filterNext fs pred fuel s).2.options = s.options) := by
  intro fuel
  induction fuel with
  | zero => exact fun s => rfl
  | succ n ih =>
    intro s
    have hc := iterNext_const fs (n + 1) s
    rw [filterNext]
    cases hstep : iterNext fs (n + 1) s with
    | mk item s1 =>
      rw [hstep] at hc
      cases item with
      | none => exact hc.1
      | some x =>
        cases x with
        | error e => exact hc.1
        | ok p =>
          dsimp only
          by_cases hp : pred p = true
          · rw [if_neg (by simp [hp])]
            exact hc.1
          · rw [if_pos (by simp [Bool.not_eq_true] at hp; simp [hp])]
            have h2 := ih (if fs.isDir p then skipCurrentDirectory s1 else s1)
            rw [h2]
            split
            · exact hc.1
            · exact hc.1

theorem filterNext_c9 (fs : Fs) (d : FPath) (pred : FPath → Bool)
    (hd : fs.isDir d = true) (hwf : treeFs fs) (hpred : pred d = false) :
    ∀ fuel s, s.options.overall = false →
      toExcludes s.options d = false → toIncludes s.options d = true →
      toIncludesExtensions s.options d = true →
      (invC9 d s ∨ invC9z d s) →
      (match filterNext fs pred fuel s with
       | (some (Except.ok p), s') => d.isPrefixOf p = false ∧ (invC9 d s' ∨ invC9z d s')
       | (_, s') => (invC9 d s' ∨ invC9z d s')) := by
  intro fuel
  induction fuel with
  | zero => intro s _ _ _ _ hinv; exact hinv
  | succ n ih =>
    intro s hov hexc hinc hext hinv
    have hc := iterNext_const fs (n + 1) s
    rw [filterNext]
    rcases hinv with hinv | hinv
    · have hin := iterNext_c9 fs d hd hwf (n + 1) s hov hexc hinc hext hinv
      cases hstep : iterNext fs (n + 1) s with
      | mk item s1 =>
        rw [hstep] at hin hc
        cases item with
        | none => exact Or.inl hin
        | some x =>
          cases x with
          | error e => exact Or.inl hin
          | ok p =>
            dsimp only
            rcases hin with ⟨hpd, hz⟩ | ⟨hnp, hinv1⟩
            · have hpp : pred p = false := by rw [hpd]; exact hpred
              rw [if_pos (by simp [hpp])]
              have hskip : (if fs.isDir p then skipCurrentDirectory s1 else s1) =
                  skipCurrentDirectory s1 := by
                rw [hpd, if_pos hd]
              rw [hskip]
              have hopts2 : (skipCurrentDirectory s1).options = s.options := hc.1
              exact ih _ (by rw [hopts2]; exact hov) (by rw [hopts2]; exact hexc)
                (by rw [hopts2]; exact hinc) (by rw [hopts2]; exact hext) (Or.inr hz)
            · by_cases hp : pred p = true
              · rw [if_neg (by simp [hp])]
                exact ⟨hnp, Or.inl hinv1⟩
              · rw [if_pos (by simp [Bool.not_eq_true] at hp; simp [hp])]
                have hinv2 : invC9 d (if fs.isDir p then skipCurrentDirectory s1 else s1) := by
                  split
                  · exact skip_invC9 hinv1
                  · exact hinv1
                have hopts2 : (if fs.isDir p then skipCurrentDirectory s1 else s1).options =
                    s.options := by
                  split
                  · exact hc.1
                  · exact hc.1
                exact ih _ (by rw [hopts2]; exact hov) (by rw [hopts2]; exact hexc)
                  (by rw [hopts2]; exact hinc) (by rw [hopts2]; exact hext) (Or.inl hinv2)
    · have hin := iterNext_c9z fs d hwf (n + 1) s hov hinv
      cases hstep : iterNext fs (n + 1) s with
      | mk item s1 =>
        rw [hstep] at hin hc
        cases item with
        | none => exact Or.inr hin
        | some x =>
          cases x with
          | error e => exact Or.inr hin
          | ok p =>
            dsimp only
            obtain ⟨hnp, hinv1⟩ := hin
            by_cases hp : pred p = true
            · rw [if_neg (by simp [hp])]
              exact ⟨hnp, Or.inr hinv1⟩
            · rw [if_pos (by simp [Bool.not_eq_true] at hp; simp [hp])]
              have hinv2 : invC9z d (if fs.isDir p then skipCurrentDirectory s1 else s1) := by
                split
                · exact skip_invC9z hinv1
                · exact hinv1
              have hopts2 : (if fs.isDir p then skipCurrentDirectory s1 else s1).options =
                  s.options := by
                split
                · exact hc.1
                · exact hc.1
              exact ih _ (by rw [hopts2]; exact hov) (by rw [hopts2]; exact hexc)
                (by rw [hopts2]; exact hinc) (by rw [hopts2]; exact hext) (Or.inr hinv2)

theorem filterNext_ok_pred (fs : Fs) (pred : FPath → Bool) : ∀ fuel s p s',
    filterNext fs pred fuel s = (some (Except.ok p), s') → pred p = true := by
  intro fuel
  induction fuel with
  | zero => intro s p s' h; exact absurd (congrArg Prod.fst h) (by simp [filterNext])
  | succ n ih =>
    intro s p s' h
    rw [filterNext] at h
    split at h
    · exact absurd (congrArg Prod.fst h) (by simp)
    · exact absurd (congrArg Prod.fst h) (by simp)
    · next q s1 heq =>
      split at h
      · exact ih _ _ _ h
      · next hq =>
        have hqp : q = p := by
          have := congrArg Prod.fst h
          simpa using this
        subst hqp
        simpa using hq

theorem runFilter_c9 (fs : Fs) (d : FPath) (pred : FPath → Bool)
    (hd : fs.isDir d = true) (hwf : treeFs fs) (hpred : pred d = false) :
    ∀ fuel s, s.options.overall = false →
      toExcludes s.options d = false → toIncludes s.options d = true →
      toIncludesExtensions s.options d = true →
      (invC9 d s ∨ invC9z d s) →
      ∀ p, Except.ok p ∈ runFilter fs pred fuel s → d.isPrefixOf p = false := by
  intro fuel
  induction fuel with
  | zero => intro s _ _ _ _ _ p hp; exact absurd hp (by simp [runFilter])
  | succ n ih =>
    intro s hov hexc hinc hext hinv p hp
    have hin := filterNext_c9 fs d pred hd hwf hpred (n + 1) s hov hexc hinc hext hinv
    have hc := filterNext_const fs pred (n + 1) s
    rw [runFilter] at hp
    split at hp
    · exact absurd hp (List.not_mem_nil _)
    · next item s1 heq =>
      rw [heq] at hin
      rw [show (filterNext fs pred (n + 1) s).2 = s1 from congrArg Prod.snd heq] at hc
      rcases List.mem_cons.mp hp with h1 | h1
      · cases item with
        | ok q =>
          have hqp : q = p := by simpa using h1.symm
          subst hqp
          exact hin.1
        | error e => exact absurd h1 (by simp)
      · have hinv1 : invC9 d s1 ∨ invC9z d s1 := by
          cases item with
          | ok q => exact hin.2
          | error e => exact hin
        exact ih s1 (by rw [hc]; exact hov) (by rw [hc]; exact hexc)
          (by rw [hc]; exact hinc) (by rw [hc]; exact hext) hinv1 p h1

theorem runFilter_pred (fs : Fs) (pred : FPath → Bool) : ∀ fuel s p,
    Except.ok p ∈ runFilter fs pred fuel s → pred p = true := by
  intro fuel
  induction fuel with
  | zero => intro s p h; exact absurd h (by simp [runFilter])
  | succ n ih =>
    intro s p h
    rw [runFilter] at h
    split at h
    · exact absurd h (List.not_mem_nil _)
    · next item s1 heq =>
      rcases List.mem_cons.mp h with h1 | h1
      · exact filterNext_ok_pred fs pred (n + 1) s p s1 (by rw [heq, ← h1])
      · exact ih s1 p h1

theorem okPaths_map_ok (l : List FPath) : okPaths (l.map Except.ok) = l := by
  induction l with
  | nil => rfl
  | cons a t ih => rw [List.map_cons, okPaths, ih]

/-- A `World`'s read-only view satisfies the `read_dir` well-formedness
once its stored keys are distinct. -/
theorem treeFs_toFs (w : World) (hnd : (w.nodes.map Prod.fst).Nodup) : treeFs w.toFs := by
  intro p items hrd
  unfold World.toFs at hrd
  dsimp only at hrd
  cases hf : w.find p with
  | none => rw [hf] at hrd; exact absurd hrd (by simp)
  | some n =>
    cases n with
    | file c m pm => rw [hf] at hrd; exact absurd hrd (by simp)
    | dir pm m sz =>
      rw [hf] at hrd
      have hitems : items = (w.childPaths p).map Except.ok := by
        have h2 := hrd
        simp at h2
        exact h2.symm
      subst hitems
      rw [okPaths_map_ok]
      constructor
      · unfold World.childPaths
        have hsub : ((w.nodes.filter fun e => !e.1.isEmpty && e.1.dropLast == p).map
            Prod.fst).Sublist (w.nodes.map Prod.fst) :=
          (List.filter_sublist _).map Prod.fst
        exact hnd.sublist hsub
      · intro c hc
        unfold World.childPaths at hc
        rcases List.mem_map.mp hc with ⟨e, he, hfst⟩
        have hfil := List.of_mem_filter he
        simp at hfil
        obtain ⟨hne, hdl⟩ := hfil
        have hcne : c ≠ [] := by rw [← hfst]; exact hne
        refine ⟨c.getLast hcne, ?_⟩
        have hcd : c.dropLast = p := by rw [← hfst]; exact hdl
        rw [← hcd]
        exact (List.dropLast_append_getLast hcne).symm

/-- C9 amended (pre-order part): over a well-formed filesystem, a
pre-order traversal wrapped in a `FilterPath` decorator whose predicate
rejects the directory `d` (which passes the engine's own filters, and is
not a strict ancestor of the root) emits only predicate-accepted entries,
and emits neither `d` nor any descendant of `d` — the rejected directory's
subtree is pruned and never surfaces. -/
theorem c9_pre_order_prune (fs : Fs) (pred : FPath → Bool) (d root : FPath)
    (opts : FileSearcherOptions) (fuel : Nat)
    (hov : opts.overall = false) (hwf : treeFs fs) (hd : fs.isDir d = true)
    (hpred : pred d = false)
    (hexc : toExcludes opts d = false) (hinc : toIncludes opts d = true)
    (hext : toIncludesExtensions opts d = true)
    (hroot : d.isPrefixOf root = true → root = d) :
    (∀ p, Except.ok p ∈ runFilter fs pred fuel
        (FileSearcher.intoIter ⟨root, opts⟩) → pred p = true) ∧
      (∀ p, Except.ok p ∈ runFilter fs pred fuel
        (FileSearcher.intoIter ⟨root, opts⟩) → d.isPrefixOf p = false) := by
  constructor
  · exact fun p hp => runFilter_pred fs pred fuel _ p hp
  · intro p hp
    refine runFilter_c9 fs d pred hd hwf hpred fuel _ hov hexc hinc hext
      (Or.inl ⟨?_, ?_, ?_⟩) p hp
    · intro q hq
      simp [FileSearcher.intoIter] at hq
    · intro q hq hpre
      have hq' : q = root := by
        simpa [statePaths, FileSearcher.intoIter, pendPaths, okPaths] using hq
      subst hq'
      exact hroot hpre
    · unfold chainCnt
      have hq' : statePaths (FileSearcher.intoIter ⟨root, opts⟩) = [root] := by
        simp [statePaths, FileSearcher.intoIter, pendPaths, okPaths]
      rw [hq']
      exact List.countP_le_length _

/-- The world used to exercise the decorator's pruning: root directory `r`
holding the directory `r/d`, which holds the file `r/d/f`. -/
def wC9 : World :=
  { nodes := [(["r"], FsNode.dir 493 1 0),
              (["r", "d"], FsNode.dir 493 1 0),
              (["r", "d", "f"], FsNode.file [1] 1 420)],
    now := 9 }

/-- A predicate that rejects exactly the directory `r/d`. -/
def predC9 : FPath → Bool := fun p => !(p == ["r", "d"])

/-- The options used in the C9 runs (everything default, unbounded depth). -/
def optsC9 : FileSearcherOptions :=
  { FileSearcherOptions.default with max_depth := usizeMax }

/-- The post-order (`overall = true`) engine state over `wC9` rooted at `r`. -/
def itC9post : IntoIter :=
  { options := { optsC9 with overall := true },
    offset_depth := 1,
    pending_paths := [InnerEntryPath.path ["r"]],
    current_read_directory := none }

/-- C9 counterexample: in post-order mode the claim fails — the rejected
directory `r/d` is a directory, its predicate rejects it, and yet its
descendant `r/d/f` has already been read and IS emitted by the decorated
sequence (post-order surfaces a directory only after its subtree). -/
theorem c9_postorder_counterexample :
    wC9.toFs.isDir ["r", "d"] = true ∧
      predC9 ["r", "d"] = false ∧
      itC9post.options.overall = true ∧
      Except.ok ["r", "d", "f"] ∈ runFilter wC9.toFs predC9 20 itC9post := by
  refine ⟨rfl, rfl, rfl, ?_⟩
  decide

/-- C9 witness: in pre-order mode over `wC9`, the rejected directory's
descendant `r/d/f` is never emitted. -/
theorem c9_witness :
    Except.ok ["r", "d", "f"] ∉
      runFilter wC9.toFs predC9 20 (FileSearcher.intoIter ⟨["r"], optsC9⟩) := by
  intro hmem
  have h := (c9_pre_order_prune wC9.toFs predC9 ["r", "d"] ["r"] optsC9 20
    rfl (treeFs_toFs wC9 (by decide)) rfl rfl rfl rfl rfl (by decide)).2
    ["r", "d", "f"] hmem
  exact absurd h (by decide)

/-! ### Claim C4: dry-run behaviour -/

theorem ancWalk_dry (source target : FPath) : ∀ fuel w check,
    ∃ err, ancWalk source target true fuel w check = (w, 0, err) := by
  intro fuel
  induction fuel with
  | zero => intro w check; exact ⟨none, rfl⟩
  | succ n ih =>
    intro w check
    rw [ancWalk]
    cases hp : parentOf check with
    | none => exact ⟨none, rfl⟩
    | some parent =>
      dsimp only
      by_cases he : existsW w parent = true
      · rw [if_pos he]
        exact ⟨none, rfl⟩
      · rw [if_neg he]
        cases hr : relOf target parent with
        | none => exact ⟨some 1, rfl⟩
        | some relp =>
          dsimp only
          by_cases hd : isDirW w (source ++ relp) = true
          · rw [if_pos hd, if_pos rfl]
            exact ih w parent
          · rw [if_neg hd]
            exact ih w parent

theorem processEntry_dry_world (source target : FPath) (oq : Bool)
    (w : World) (ans : List (List Char)) (st : SyncStats) (p : FPath) :
    (processEntry source target oq true w ans st p).1 = w := by
  unfold processEntry
  cases hrel : relOf source p with
  | none => rfl
  | some rel =>
    dsimp only
    cases hm1 : w.metaW p with
    | none => rfl
    | some sm =>
      dsimp only
      cases hm2 : w.metaW (target ++ rel) with
      | none => rfl
      | some tm =>
        dsimp only
        obtain ⟨err, hwalk⟩ := ancWalk_dry source target (target ++ rel).length w (target ++ rel)
        rw [hwalk]
        cases err with
        | some e => rfl
        | none =>
          dsimp only
          by_cases hex : existsW w (target ++ rel) = true
          · rw [if_pos hex]
            cases hm3 : w.metaW p with
            | none => rfl
            | some sm2 =>
              cases hm4 : w.metaW (target ++ rel) with
              | none => rfl
              | some tm2 =>
                dsimp only
                split
                · split
                  · split
                    · rfl
                    · rfl
                  · rfl
                · rfl
          · rw [if_neg hex]
            split
            · rfl
            · rfl

theorem processEntry_dry_stats (source target : FPath) (oq : Bool)
    (w : World) (ans : List (List Char)) (st : SyncStats) (p : FPath) :
    ∀ w' ans' st', processEntry source target oq true w ans st p = (w', ans', Except.ok st') →
      st'.fileCopied = st.fileCopied ∧ st'.fileOverrided = st.fileOverrided ∧
        st'.directoryCreated = st.directoryCreated := by
  intro w' ans' st' h
  unfold processEntry at h
  cases hrel : relOf source p with
  | none =>
    rw [hrel] at h
    exact absurd (congrArg (fun x => x.2.2) h) (by simp)
  | some rel =>
    rw [hrel] at h
    dsimp only at h
    cases hm1 : w.metaW p with
    | none =>
      rw [hm1] at h
      exact absurd (congrArg (fun x => x.2.2) h) (by simp)
    | some sm =>
      rw [hm1] at h
      dsimp only at h
      cases hm2 : w.metaW (target ++ rel) with
      | none =>
        rw [hm2] at h
        exact absurd (congrArg (fun x => x.2.2) h) (by simp)
      | some tm =>
        rw [hm2] at h
        dsimp only at h
        obtain ⟨err, hwalk⟩ := ancWalk_dry source target (target ++ rel).length w (target ++ rel)
        rw [hwalk] at h
        cases err with
        | some e =>
          exact absurd (congrArg (fun x => x.2.2) h) (by simp)
        | none =>
          dsimp only at h
          simp only [eq_self_iff_true, if_true] at h
          repeat' split at h
          all_goals
            (rw [Prod.mk.injEq, Prod.mk.injEq] at h
             obtain ⟨h1, h2, h3⟩ := h
             first
               | exact Except.noConfusion h3
               | (rw [Except.ok.injEq] at h3
                  subst h3
                  simp))

/-- Ancestor-closedness of a world: every existing non-empty path has an
existing directory at its parent path, as a real filesystem guarantees.
Checked by scanning the node list. -/
def ClosedW (w : World) : Bool :=
  w.nodes.all fun e => e.1.isEmpty || isDirW w e.1.dropLast

theorem closedW_spec (w : World) (hcl : ClosedW w = true) :
    ∀ p : FPath, existsW w p = true → p ≠ [] → isDirW w p.dropLast = true := by
  intro p hex hne
  unfold existsW World.find at hex
  cases hf : w.nodes.find? fun e => e.1 == p with
  | none => rw [hf] at hex; simp at hex
  | some e =>
    have hmem : e ∈ w.nodes := List.mem_of_find?_eq_some hf
    have hpe : e.1 = p := by
      have := List.find?_some hf
      exact eq_of_beq this
    unfold ClosedW at hcl
    rw [List.all_eq_true] at hcl
    have hcle := hcl e hmem
    rw [hpe] at hcle
    have hie : p.isEmpty = false := by
      cases p with
      | nil => exact absurd rfl hne
      | cons a t => rfl
    rw [hie] at hcle
    simpa using hcle

theorem metaW_some_existsW (w : World) (p : FPath) (m : FMeta)
    (h : w.metaW p = some m) : existsW w p = true := by
  unfold World.metaW at h
  unfold existsW
  cases hf : w.find p with
  | none => rw [hf] at h; exact Option.noConfusion h
  | some n => rfl

theorem isDirW_existsW (w : World) (p : FPath) (h : isDirW w p = true) :
    existsW w p = true := by
  unfold isDirW at h
  unfold existsW
  cases hf : w.find p with
  | none => rw [hf] at h; simp at h
  | some n => rfl

theorem parentOf_ne_nil (p : FPath) (h : p ≠ []) : parentOf p = some p.dropLast := by
  cases p with
  | nil => exact absurd rfl h
  | cons a t => rfl

/-- When the parent of `check` already exists, the ancestor-repair walk is
a no-op in dry and wet mode alike. -/
theorem ancWalk_parent_exists (source target : FPath) (d : Bool) (w : World)
    (check : FPath) (hne : check ≠ [])
    (hexp : existsW w check.dropLast = true) (fuel : Nat) :
    ancWalk source target d (fuel + 1) w check = (w, 0, none) := by
  rw [ancWalk, parentOf_ne_nil check hne]
  dsimp only
  rw [if_pos hexp]

/-- With confirmation disabled, one body of `replicate`'s per-entry loop is
entirely independent of the dry-run flag on an ancestor-closed world with a
non-empty destination root: the early target-metadata read forces the
destination to exist, so ancestor repair finds the parent already present
and no branch that consults `dry` is reachable. -/
theorem processEntry_dry_irrel (source target : FPath) (w : World)
    (ans : List (List Char)) (st : SyncStats) (p : FPath)
    (hcl : ClosedW w = true) (htgt : target ≠ []) :
    processEntry source target false true w ans st p =
      processEntry source target false false w ans st p := by
  unfold processEntry
  cases hrel : relOf source p with
  | none => rfl
  | some rel =>
    dsimp only
    cases hm1 : w.metaW p with
    | none => rfl
    | some sm =>
      dsimp only
      cases hm2 : w.metaW (target ++ rel) with
      | none => rfl
      | some tm =>
        dsimp only
        have hne : target ++ rel ≠ [] := by
          intro hz
          exact htgt (List.append_eq_nil.mp hz).1
        have hex : existsW w (target ++ rel) = true :=
          metaW_some_existsW w _ tm hm2
        have hexp : existsW w (target ++ rel).dropLast = true :=
          isDirW_existsW w _ (closedW_spec w hcl _ hex hne)
        obtain ⟨n, hn⟩ : ∃ n, (target ++ rel).length = n + 1 := by
          cases htr : target ++ rel with
          | nil => exact absurd htr hne
          | cons a t => exact ⟨t.length, rfl⟩
        rw [hn, ancWalk_parent_exists source target true w _ hne hexp n,
            ancWalk_parent_exists source target false w _ hne hexp n]
        dsimp only
        rw [if_pos hex, if_pos hex, hm1, hm2]
        dsimp only
        split
        · rfl
        · rfl

/-- The per-entry loop never mutates the world under dry-run. -/
theorem replicateLoop_dry_world (source target : FPath) (oq : Bool) :
    ∀ fuel w it ans st,
      (replicateLoop source target oq true fuel w it ans st).1 = w := by
  intro fuel
  induction fuel with
  | zero => intro w it ans st; rfl
  | succ n ih =>
    intro w it ans st
    rw [replicateLoop]
    cases hit : iterNext w.toFs (n + 1) it with
    | mk o it2 =>
      cases o with
      | none => rfl
      | some item =>
        cases item with
        | error e =>
          dsimp only
          exact ih w it2 ans st
        | ok p =>
          dsimp only
          cases hpe : processEntry source target oq true w ans st p with
          | mk w2 rest =>
            have hw2 : w2 = w := by
              have hpw := processEntry_dry_world source target oq w ans st p
              rw [hpe] at hpw
              exact hpw
            cases rest with
            | mk ans2 r =>
              cases r with
              | ok st2 =>
                dsimp only
                rw [hw2]
                exact ih w it2 ans2 st2
              | error e =>
                dsimp only
                exact hw2

/-- A completing dry run of the per-entry loop leaves the mutation-tied
counters where they started. -/
theorem replicateLoop_dry_stats (source target : FPath) (oq : Bool) :
    ∀ fuel w it ans st w' ans' st',
      replicateLoop source target oq true fuel w it ans st = (w', ans', Except.ok st') →
      st'.fileCopied = st.fileCopied ∧ st'.fileOverrided = st.fileOverrided ∧
        st'.directoryCreated = st.directoryCreated := by
  intro fuel
  induction fuel with
  | zero =>
    intro w it ans st w' ans' st' h
    rw [replicateLoop] at h
    rw [Prod.mk.injEq, Prod.mk.injEq] at h
    obtain ⟨h1, h2, h3⟩ := h
    rw [Except.ok.injEq] at h3
    subst h3
    exact ⟨rfl, rfl, rfl⟩
  | succ n ih =>
    intro w it ans st w' ans' st' h
    rw [replicateLoop] at h
    cases hit : iterNext w.toFs (n + 1) it with
    | mk o it2 =>
      rw [hit] at h
      cases o with
      | none =>
        dsimp only at h
        rw [Prod.mk.injEq, Prod.mk.injEq] at h
        obtain ⟨h1, h2, h3⟩ := h
        rw [Except.ok.injEq] at h3
        subst h3
        exact ⟨rfl, rfl, rfl⟩
      | some item =>
        cases item with
        | error e =>
          dsimp only at h
          exact ih w it2 ans st w' ans' st' h
        | ok p =>
          dsimp only at h
          cases hpe : processEntry source target oq true w ans st p with
          | mk w2 rest =>
            rw [hpe] at h
            cases rest with
            | mk ans2 r =>
              cases r with
              | ok st2 =>
                dsimp only at h
                have hmid := processEntry_dry_stats source target oq w ans st p w2 ans2 st2 hpe
                have hrec := ih w2 it2 ans2 st2 w' ans' st' h
                exact ⟨hrec.1.trans hmid.1, hrec.2.1.trans hmid.2.1,
                       hrec.2.2.trans hmid.2.2⟩
              | error e =>
                dsimp only at h
                rw [Prod.mk.injEq, Prod.mk.injEq] at h
                exact Except.noConfusion h.2.2

/-- With confirmation disabled, the whole per-entry loop is independent of
the dry-run flag on an ancestor-closed world with a non-empty destination
root. -/
theorem replicateLoop_dry_irrel (source target : FPath) (htgt : target ≠ []) :
    ∀ fuel w it ans st, ClosedW w = true →
      replicateLoop source target false true fuel w it ans st =
        replicateLoop source target false false fuel w it ans st := by
  intro fuel
  induction fuel with
  | zero => intro w it ans st hcl; rfl
  | succ n ih =>
    intro w it ans st hcl
    rw [replicateLoop, replicateLoop]
    cases hit : iterNext w.toFs (n + 1) it with
    | mk o it2 =>
      cases o with
      | none => rfl
      | some item =>
        cases item with
        | error e =>
          dsimp only
          exact ih w it2 ans st hcl
        | ok p =>
          dsimp only
          rw [processEntry_dry_irrel source target w ans st p hcl htgt]
          cases hpe : processEntry source target false false w ans st p with
          | mk w2 rest =>
            have hw2 : w2 = w := by
              have hpd : processEntry source target false true w ans st p =
                  (w2, rest) := by
                rw [processEntry_dry_irrel source target w ans st p hcl htgt]
                exact hpe
              have hpw := processEntry_dry_world source target false w ans st p
              rw [hpd] at hpw
              exact hpw
            cases rest with
            | mk ans2 r =>
              cases r with
              | ok st2 =>
                dsimp only
                rw [hw2]
                exact ih w it2 ans2 st2 hcl
              | error e => rfl

theorem matchLoop_world (source target : FPath) (oq : Bool) (fuel : Nat)
    (w : World) (it : IntoIter) (ans : List (List Char)) (st : SyncStats) :
    (match replicateLoop source target oq true fuel w it ans st with
     | (w', _, r) => (w', r)).1 = w := by
  cases hr : replicateLoop source target oq true fuel w it ans st with
  | mk w2 rest =>
    cases rest with
    | mk a r =>
      dsimp only
      have hpw := replicateLoop_dry_world source target oq fuel w it ans st
      rw [hr] at hpw
      exact hpw

theorem matchLoop_stats (source target : FPath) (oq : Bool) (fuel : Nat)
    (w : World) (it : IntoIter) (ans : List (List Char)) (st st' : SyncStats) :
    (match replicateLoop source target oq true fuel w it ans st with
     | (w', _, r) => (w', r)).2 = Except.ok st' →
    st'.fileCopied = st.fileCopied ∧ st'.fileOverrided = st.fileOverrided ∧
      st'.directoryCreated = st.directoryCreated := by
  cases hr : replicateLoop source target oq true fuel w it ans st with
  | mk w2 rest =>
    cases rest with
    | mk a r =>
      intro h
      dsimp only at h
      rw [h] at hr
      exact replicateLoop_dry_stats source target oq fuel w it ans st w2 a st' hr

/-- A dry `replicate` call returns the world unchanged: no directory
creation, no permission copy, no file copy. -/
theorem replicate_dry_world (w : World) (source target : FPath) (oq : Bool)
    (ans : List (List Char)) (fuel : Nat) :
    (replicate w source target oq true ans fuel).1 = w := by
  unfold replicate
  dsimp only
  by_cases hc : (isDirW w source && !existsW w target) = true
  · rw [if_pos hc, if_pos rfl]
    exact matchLoop_world source target oq fuel w _ ans SyncStats.zero
  · rw [if_neg hc]
    exact matchLoop_world source target oq fuel w _ ans SyncStats.zero

/-- A completing dry `replicate` run reports the mutation-tied counters as
zero. -/
theorem replicate_dry_zero (w : World) (source target : FPath) (oq : Bool)
    (ans : List (List Char)) (fuel : Nat) (st' : SyncStats)
    (h : (replicate w source target oq true ans fuel).2 = Except.ok st') :
    st'.fileCopied = 0 ∧ st'.fileOverrided = 0 ∧ st'.directoryCreated = 0 := by
  unfold replicate at h
  dsimp only at h
  by_cases hc : (isDirW w source && !existsW w target) = true
  · rw [if_pos hc, if_pos rfl] at h
    exact matchLoop_stats source target oq fuel w _ ans SyncStats.zero st' h
  · rw [if_neg hc] at h
    exact matchLoop_stats source target oq fuel w _ ans SyncStats.zero st' h

/-- With confirmation disabled, on an ancestor-closed world whose
destination root exists, `replicate` is entirely independent of the
dry-run flag: identical final world, identical statistics. -/
theorem replicate_dry_irrel (w : World) (source target : FPath)
    (ans : List (List Char)) (fuel : Nat)
    (hcl : ClosedW w = true) (htgt : target ≠ []) (hex : existsW w target = true) :
    replicate w source target false true ans fuel =
      replicate w source target false false ans fuel := by
  unfold replicate
  dsimp only
  have hc : (isDirW w source && !existsW w target) = false := by
    rw [hex]; simp
  rw [hc]
  have hff : ¬(false = true) := by simp
  rw [if_neg hff, if_neg hff,
      replicateLoop_dry_irrel source target htgt fuel w _ ans SyncStats.zero hcl]

/-- C4 (amended): under dry-run, `replicate` performs no filesystem
mutation at all — the returned world is the input world, so the
destination tree is byte-for-byte identical before and after the call —
and every completing dry run reports the mutation-tied counters
(files-copied, files-overridden, directories-created) as zero.  The
original claim's final clause (total-visited and stale counts always equal
those of a non-dry run) holds when confirmation is disabled on an
ancestor-closed world whose destination root exists: there the dry run
returns exactly the same statistics as the wet run.  It fails in general —
see the counterexample — because with confirmation enabled a confirmed
overwrite performed only by the wet run can change a later entry's
staleness. -/
theorem c4_dry_run_frame (w : World) (source target : FPath) (oq : Bool)
    (ans : List (List Char)) (fuel : Nat) :
    (replicate w source target oq true ans fuel).1 = w ∧
    (∀ st', (replicate w source target oq true ans fuel).2 = Except.ok st' →
      st'.fileCopied = 0 ∧ st'.fileOverrided = 0 ∧ st'.directoryCreated = 0) ∧
    (oq = false → ClosedW w = true → target ≠ [] → existsW w target = true →
      replicate w source target oq true ans fuel =
        replicate w source target oq false ans fuel) :=
  ⟨replicate_dry_world w source target oq ans fuel,
   fun st' h => replicate_dry_zero w source target oq ans fuel st' h,
   fun hoq hcl htgt hex => by
     subst hoq
     exact replicate_dry_irrel w source target ans fuel hcl htgt hex⟩

/-- Witness world for C4: an ancestor-closed filesystem (with an explicit
root directory) whose destination tree mirrors the source, so both the dry
and the wet run complete. -/
def wC4w : World :=
  { nodes := [([], FsNode.dir 7 0 0),
              (["s"], FsNode.dir 7 0 0),
              (["s", "a"], FsNode.file [1] 5 6),
              (["t"], FsNode.dir 7 0 0),
              (["t", "a"], FsNode.file [1] 9 6)],
    now := 50 }

theorem c4_witness :
    (replicate wC4w ["s"] ["t"] false true [] 10).1 = wC4w ∧
    ((⟨0, 0, 0, 0, 2⟩ : SyncStats).fileCopied = 0 ∧
     (⟨0, 0, 0, 0, 2⟩ : SyncStats).fileOverrided = 0 ∧
     (⟨0, 0, 0, 0, 2⟩ : SyncStats).directoryCreated = 0) ∧
    replicate wC4w ["s"] ["t"] false true [] 10 =
      replicate wC4w ["s"] ["t"] false false [] 10 :=
  ⟨(c4_dry_run_frame wC4w ["s"] ["t"] false [] 10).1,
   (c4_dry_run_frame wC4w ["s"] ["t"] false [] 10).2.1 ⟨0, 0, 0, 0, 2⟩ (by decide),
   (c4_dry_run_frame wC4w ["s"] ["t"] false [] 10).2.2 rfl (by decide) (by decide)
     (by decide)⟩

/-- Counterexample world for C4: the destination root `d/t` lies inside
the source tree's parent so that the source entry `d/t/s/s/y` is copied
onto the source entry `d/t/s/y` by the wet run, changing the staleness the
wet run later observes for `d/t/s/y`. -/
def wC4x : World :=
  { nodes := [(["d"], FsNode.dir 7 0 0),
              (["d", "t"], FsNode.dir 7 0 0),
              (["d", "t", "s"], FsNode.dir 7 0 0),
              (["d", "t", "s", "y"], FsNode.file [9] 0 6),
              (["d", "t", "s", "s"], FsNode.dir 7 0 0),
              (["d", "t", "s", "s", "y"], FsNode.file [1, 2, 3, 4, 5] 100 6),
              (["d", "t", "y"], FsNode.file [8, 8, 8] 50 6)],
    now := 1000 }

/-- The interactive input for the C4 counterexample: confirm the first
override, decline any further one. -/
def ansC4x : List (List Char) := [['y'], ['n']]

/-- C4 counterexample: with confirmation enabled and the destination root
inside the source tree, both the dry run and the wet run complete, both
visit the same four entries, but the dry run reports stale count 1 while
the wet run reports stale count 2 — the confirmed overwrite of
`d/t/s/y` performed only by the wet run makes the later entry `d/t/s/y`
newer and of a different size than its destination `d/t/y`.  Dry-run stale
counts are therefore not always "computed exactly as in a non-dry run". -/
theorem c4_stale_count_counterexample :
    (replicate wC4x ["d", "t", "s"] ["d", "t"] true true ansC4x 20).2 =
        Except.ok ⟨0, 1, 0, 0, 4⟩ ∧
      (replicate wC4x ["d", "t", "s"] ["d", "t"] true false ansC4x 20).2 =
        Except.ok ⟨0, 2, 1, 0, 4⟩ :=
  ⟨by decide, by decide⟩
